import Mathlib

/-!
Verification of the placeholder-preserving XLIFF translation core
(`auto_translate_localizables/translator.py`).

Texts are modelled as `List Char` (Python `str` is a sequence of code
points).  Python string primitives used by the source are modelled
explicitly: `str.strip()` (`pyStrip`), `str.replace(old, new, 1)`
(`replaceFirst`), `str.replace(old, new)` (`replaceAll`), and the decimal
rendering used by the f-string `f"__PH{i}__"` (`natRepr`).

The compiled regular expression `PLACEHOLDER_PATTERN` is modelled by a
deterministic matcher `matchAt` that tries the six alternatives in the
order they appear in the pattern, with the greedy/lazy semantics each
alternative has in Python (`%[@dlld]+`, `%\d+$[@dlld]+`, `$(.*?)`,
brace-number, degree-temperature, water-drop emoji).  `re.finditer` /
`re.findall` / `re.sub` are modelled through the left-to-right
non-overlapping scan `pieces`.
-/

/-- A Python text: a list of characters. -/
abbrev Str := List Char

/-- Python `str.strip()` (leading and trailing whitespace removed). -/
def pyStrip (s : Str) : Str :=
  ((s.dropWhile Char.isWhitespace).reverse.dropWhile Char.isWhitespace).reverse

/-- Boolean test that `pat` is a leading segment of `s`
(used to model the scanning done by Python `str.replace`). -/
def leadsWith : Str → Str → Bool
  | [], _ => true
  | _ :: _, [] => false
  | a :: pat, b :: s => a = b && leadsWith pat s

/-- Boolean test that `pat` occurs contiguously somewhere inside `s`. -/
def containsSeg (pat : Str) : Str → Bool
  | [] => leadsWith pat []
  | c :: s => leadsWith pat (c :: s) || containsSeg pat s

/-- Python `s.replace(pat, repl, 1)`: replace the leftmost occurrence of
`pat` (if any).  The source never calls it with an empty pattern. -/
def replaceFirst : Str → Str → Str → Str
  | [], pat, repl => if pat = [] then repl else []
  | c :: s, pat, repl =>
    if pat ≠ [] ∧ leadsWith pat (c :: s) then repl ++ (c :: s).drop pat.length
    else c :: replaceFirst s pat repl

/-- Fuel-driven worker for `replaceAll` (fuel bounds the input length, so
the recursion is structural and kernel-reducible). -/
def replaceAllGo : Nat → Str → Str → Str → Str
  | 0, _, _, _ => []
  | _ + 1, [], _, _ => []
  | fuel + 1, c :: s, pat, repl =>
    if pat ≠ [] ∧ leadsWith pat (c :: s) then
      repl ++ replaceAllGo fuel ((c :: s).drop pat.length) pat repl
    else c :: replaceAllGo fuel s pat repl

/-- Python `s.replace(pat, repl)`: replace every occurrence of `pat`,
scanning left to right without overlap.  The source never calls it with
an empty pattern; for `pat = []` this model is the identity. -/
def replaceAll (s pat repl : Str) : Str := replaceAllGo s.length s pat repl

theorem replaceAllGo_fuel {fuel1 fuel2 : Nat} {s pat repl : Str}
    (h1 : s.length ≤ fuel1) (h2 : s.length ≤ fuel2) :
    replaceAllGo fuel1 s pat repl = replaceAllGo fuel2 s pat repl := by
  induction fuel1 generalizing fuel2 s with
  | zero =>
    have hs : s = [] := List.eq_nil_of_length_eq_zero (Nat.le_zero.mp h1)
    subst hs
    cases fuel2 <;> rfl
  | succ f1 ih =>
    cases s with
    | nil => cases fuel2 <;> rfl
    | cons c s =>
      cases fuel2 with
      | zero => simp at h2
      | succ f2 =>
        simp only [List.length_cons] at h1 h2
        simp only [replaceAllGo]
        by_cases hc : pat ≠ [] ∧ leadsWith pat (c :: s)
        · rw [if_pos hc, if_pos hc]
          have hp : pat.length ≠ 0 :=
            fun hz => hc.1 (List.eq_nil_of_length_eq_zero hz)
          have hd : ((c :: s).drop pat.length).length ≤ s.length := by
            simp only [List.length_drop, List.length_cons]
            omega
          rw [@ih f2 (List.drop pat.length (c :: s)) (by omega) (by omega)]
        · rw [if_neg hc, if_neg hc, @ih f2 s (by omega) (by omega)]

/-- The defining recurrence of `replaceAll`. -/
theorem replaceAll_eq (s pat repl : Str) :
    replaceAll s pat repl =
      match s with
      | [] => []
      | c :: s =>
        if pat ≠ [] ∧ leadsWith pat (c :: s) then
          repl ++ replaceAll ((c :: s).drop pat.length) pat repl
        else c :: replaceAll s pat repl := by
  cases s with
  | nil => rfl
  | cons c s =>
    simp only [replaceAll, List.length_cons, replaceAllGo]
    by_cases hc : pat ≠ [] ∧ leadsWith pat (c :: s)
    · rw [if_pos hc, if_pos hc]
      have hd : ((c :: s).drop pat.length).length ≤ s.length := by
        have hp : pat.length ≠ 0 :=
          fun hz => hc.1 (List.eq_nil_of_length_eq_zero hz)
        simp only [List.length_drop, List.length_cons]
        omega
      exact congrArg _ (replaceAllGo_fuel hd (le_refl _))
    · rw [if_neg hc, if_neg hc]

/-- Fuel-driven worker for `natRepr`. -/
def natReprGo : Nat → Nat → Str
  | 0, _ => []
  | fuel + 1, n =>
    if n < 10 then [Char.ofNat (48 + n)]
    else natReprGo fuel (n / 10) ++ [Char.ofNat (48 + n % 10)]

/-- Decimal rendering of a natural number, as produced by a Python
f-string such as `f"__PH{i}__"`. -/
def natRepr (n : Nat) : Str := natReprGo (n + 1) n

theorem natReprGo_fuel {fuel1 fuel2 n : Nat} (h1 : n < fuel1) (h2 : n < fuel2) :
    natReprGo fuel1 n = natReprGo fuel2 n := by
  induction fuel1 generalizing fuel2 n with
  | zero => omega
  | succ f1 ih =>
    cases fuel2 with
    | zero => omega
    | succ f2 =>
      simp only [natReprGo]
      by_cases hn : n < 10
      · simp [hn]
      · simp only [hn, if_false]
        have hd : n / 10 < n := Nat.div_lt_self (by omega) (by omega)
        rw [@ih f2 (n / 10) (by omega) (by omega)]

/-- The defining recurrence of `natRepr`. -/
theorem natRepr_eq (n : Nat) :
    natRepr n =
      if n < 10 then [Char.ofNat (48 + n)]
      else natRepr (n / 10) ++ [Char.ofNat (48 + n % 10)] := by
  by_cases hn : n < 10
  · simp [natRepr, natReprGo, hn]
  · have hd : n / 10 < n := Nat.div_lt_self (by omega) (by omega)
    simp only [natRepr, natReprGo, hn, if_false]
    congr 1
    exact @natReprGo_fuel n (n / 10 + 1) (n / 10) (by omega) (by omega)

/-- The translation marker `f"__PH{i}__"` from
`XLIFFTranslator.extract_placeholders`. -/
def marker (i : Nat) : Str := '_' :: '_' :: 'P' :: 'H' :: natRepr i ++ ['_', '_']

/- ### The placeholder pattern -/

/-- Character class `[@dlld]` of the first two alternatives. -/
def isFmtChar (c : Char) : Bool := c = '@' ∨ c = 'd' ∨ c = 'l'

/-- Character class `\d` (the source only ever meets ASCII digits). -/
def isDigitChar (c : Char) : Bool := c.isDigit

/-- Characters allowed by the lazy `.*?` of `$(.*?)`: anything except the
closing parenthesis it stops at and a newline (`.` does not match `\n`). -/
def isDollarBody (c : Char) : Bool := !(c = ')' || c = '\n')

/-- Alternative 1, `%[@dlld]+` (greedy). -/
def alt1 : Str → Option (Str × Str)
  | [] => none
  | c :: rest =>
    if c = '%' then
      let run := rest.takeWhile isFmtChar
      if run.isEmpty then none
      else some (c :: run, rest.dropWhile isFmtChar)
    else none

/-- Alternative 2, `%\d+\$[@dlld]+` (positional format, greedy parts). -/
def alt2 : Str → Option (Str × Str)
  | [] => none
  | c :: rest =>
    if c = '%' then
      let ds := rest.takeWhile isDigitChar
      if ds.isEmpty then none
      else
        match rest.dropWhile isDigitChar with
        | [] => none
        | d :: rest2 =>
          if d = '$' then
            let ls := rest2.takeWhile isFmtChar
            if ls.isEmpty then none
            else some (c :: ds ++ d :: ls, rest2.dropWhile isFmtChar)
          else none
    else none

/-- Alternative 3, `\$\(.*?\)` (lazy body, stops at the first `)` on the
same line). -/
def alt3 : Str → Option (Str × Str)
  | c :: d :: rest =>
    if c = '$' ∧ d = '(' then
      let body := rest.takeWhile isDollarBody
      match rest.dropWhile isDollarBody with
      | [] => none
      | e :: rest2 => if e = ')' then some (c :: d :: body ++ [e], rest2) else none
    else none
  | _ => none

/-- Alternative 4, `\{\d+\}`. -/
def alt4 : Str → Option (Str × Str)
  | [] => none
  | c :: rest =>
    if c = '{' then
      let ds := rest.takeWhile isDigitChar
      if ds.isEmpty then none
      else
        match rest.dropWhile isDigitChar with
        | [] => none
        | d :: rest2 => if d = '}' then some (c :: ds ++ [d], rest2) else none
    else none

/-- Alternative 5, `°[CF]`. -/
def alt5 : Str → Option (Str × Str)
  | c :: d :: rest =>
    if c = '°' ∧ (d = 'C' ∨ d = 'F') then some ([c, d], rest) else none
  | _ => none

/-- Alternative 6, the water-drop emoji. -/
def alt6 : Str → Option (Str × Str)
  | [] => none
  | c :: rest => if c = '💧' then some ([c], rest) else none

/-- `PLACEHOLDER_PATTERN` matched at the start of `s`: the alternatives
are tried in the order they appear in the pattern.  Returns the matched
text and the remaining suffix. -/
def matchAt (s : Str) : Option (Str × Str) :=
  match alt1 s with
  | some r => some r
  | none =>
    match alt2 s with
    | some r => some r
    | none =>
      match alt3 s with
      | some r => some r
      | none =>
        match alt4 s with
        | some r => some r
        | none =>
          match alt5 s with
          | some r => some r
          | none => alt6 s

theorem alt1_split {s m r : Str} (h : alt1 s = some (m, r)) : m ≠ [] ∧ m ++ r = s := by
  match s with
  | [] => simp [alt1] at h
  | c :: rest =>
    simp only [alt1] at h
    split_ifs at h with hc he
    simp only [Option.some.injEq, Prod.mk.injEq] at h
    obtain ⟨hm, hr⟩ := h
    subst hm; subst hr; subst hc
    exact ⟨by simp, by simp [List.takeWhile_append_dropWhile]⟩

theorem alt2_split {s m r : Str} (h : alt2 s = some (m, r)) : m ≠ [] ∧ m ++ r = s := by
  match s with
  | [] => simp [alt2] at h
  | c :: rest =>
    simp only [alt2] at h
    split_ifs at h with hc he
    subst hc
    match hdw : rest.dropWhile isDigitChar, h with
    | [], h => simp at h
    | d :: rest2, h =>
      simp only at h
      split_ifs at h with hd hl
      simp only [Option.some.injEq, Prod.mk.injEq] at h
      obtain ⟨hm, hr⟩ := h
      subst hm; subst hr; subst hd
      refine ⟨by simp, ?_⟩
      have hre : rest.takeWhile isDigitChar ++
          '$' :: (rest2.takeWhile isFmtChar ++ rest2.dropWhile isFmtChar) =
          rest.takeWhile isDigitChar ++ rest.dropWhile isDigitChar := by
        rw [List.takeWhile_append_dropWhile, hdw]
      simp only [List.cons_append, List.append_assoc]
      rw [hre, List.takeWhile_append_dropWhile]

theorem alt3_split {s m r : Str} (h : alt3 s = some (m, r)) : m ≠ [] ∧ m ++ r = s := by
  match s with
  | [] => simp [alt3] at h
  | [c] => simp [alt3] at h
  | c :: d :: rest =>
    simp only [alt3] at h
    split_ifs at h with hcd
    · obtain ⟨hc, hd⟩ := hcd
      match hdw : rest.dropWhile isDollarBody, h with
      | [], h => simp at h
      | e :: rest2, h =>
        simp only at h
        split_ifs at h with he
        simp only [Option.some.injEq, Prod.mk.injEq] at h
        obtain ⟨hm, hr⟩ := h
        subst hm; subst hr; subst hc; subst hd; subst he
        refine ⟨by simp, ?_⟩
        have hre : rest.takeWhile isDollarBody ++ ')' :: rest2 =
            rest.takeWhile isDollarBody ++ rest.dropWhile isDollarBody := by rw [hdw]
        simp only [List.cons_append, List.append_assoc, List.singleton_append,
          List.nil_append]
        rw [hre, List.takeWhile_append_dropWhile]

theorem alt4_split {s m r : Str} (h : alt4 s = some (m, r)) : m ≠ [] ∧ m ++ r = s := by
  match s with
  | [] => simp [alt4] at h
  | c :: rest =>
    simp only [alt4] at h
    split_ifs at h with hc he
    subst hc
    match hdw : rest.dropWhile isDigitChar, h with
    | [], h => simp at h
    | d :: rest2, h =>
      simp only at h
      split_ifs at h with hd
      simp only [Option.some.injEq, Prod.mk.injEq] at h
      obtain ⟨hm, hr⟩ := h
      subst hm; subst hr; subst hd
      refine ⟨by simp, ?_⟩
      have hre : rest.takeWhile isDigitChar ++ '}' :: rest2 =
          rest.takeWhile isDigitChar ++ rest.dropWhile isDigitChar := by rw [hdw]
      simp only [List.cons_append, List.append_assoc, List.singleton_append,
        List.nil_append]
      rw [hre, List.takeWhile_append_dropWhile]

theorem alt5_split {s m r : Str} (h : alt5 s = some (m, r)) : m ≠ [] ∧ m ++ r = s := by
  match s with
  | [] => simp [alt5] at h
  | [c] => simp [alt5] at h
  | c :: d :: rest =>
    simp only [alt5] at h
    split_ifs at h with hcd
    simp only [Option.some.injEq, Prod.mk.injEq] at h
    obtain ⟨hm, hr⟩ := h
    subst hm; subst hr
    exact ⟨by simp, by simp⟩

theorem alt6_split {s m r : Str} (h : alt6 s = some (m, r)) : m ≠ [] ∧ m ++ r = s := by
  match s with
  | [] => simp [alt6] at h
  | c :: rest =>
    simp only [alt6] at h
    split_ifs at h with hc
    simp only [Option.some.injEq, Prod.mk.injEq] at h
    obtain ⟨hm, hr⟩ := h
    subst hm; subst hr
    exact ⟨by simp, by simp⟩

/-- Case analysis for `matchAt`: which alternative fired. -/
theorem matchAt_cases {s : Str} {p : Str × Str} (h : matchAt s = some p) :
    alt1 s = some p ∨ alt2 s = some p ∨ alt3 s = some p ∨ alt4 s = some p ∨
      alt5 s = some p ∨ alt6 s = some p := by
  unfold matchAt at h
  cases h1 : alt1 s with
  | some q => rw [h1] at h; exact Or.inl h
  | none =>
    rw [h1] at h
    cases h2 : alt2 s with
    | some q => rw [h2] at h; exact Or.inr (Or.inl h)
    | none =>
      rw [h2] at h
      cases h3 : alt3 s with
      | some q => rw [h3] at h; exact Or.inr (Or.inr (Or.inl h))
      | none =>
        rw [h3] at h
        cases h4 : alt4 s with
        | some q => rw [h4] at h; exact Or.inr (Or.inr (Or.inr (Or.inl h)))
        | none =>
          rw [h4] at h
          cases h5 : alt5 s with
          | some q => rw [h5] at h; exact Or.inr (Or.inr (Or.inr (Or.inr (Or.inl h))))
          | none =>
            rw [h5] at h
            exact Or.inr (Or.inr (Or.inr (Or.inr (Or.inr h))))

/-- The matched text of a successful `matchAt` is nonempty and `matchAt`
splits its input. -/
theorem matchAt_split {s m r : Str} (h : matchAt s = some (m, r)) :
    m ≠ [] ∧ m ++ r = s := by
  rcases matchAt_cases h with h | h | h | h | h | h
  · exact alt1_split h
  · exact alt2_split h
  · exact alt3_split h
  · exact alt4_split h
  · exact alt5_split h
  · exact alt6_split h

/-- A piece of the left-to-right non-overlapping scan of a text: either a
single unmatched character or a full pattern match. -/
inductive Piece where
  | gap (c : Char)
  | tok (m : Str)
deriving DecidableEq, Repr

/-- Fuel-driven worker for `pieces`. -/
def piecesGo : Nat → Str → List Piece
  | 0, _ => []
  | _ + 1, [] => []
  | fuel + 1, c :: rest =>
    match matchAt (c :: rest) with
    | some (m, r) => Piece.tok m :: piecesGo fuel r
    | none => Piece.gap c :: piecesGo fuel rest

/-- The left-to-right, non-overlapping scan of `re.finditer`: at each
position try the pattern; on a match emit it and continue after it,
otherwise emit the character as a gap and move one position right. -/
def pieces (s : Str) : List Piece := piecesGo s.length s

theorem piecesGo_fuel {fuel1 fuel2 : Nat} {s : Str}
    (h1 : s.length ≤ fuel1) (h2 : s.length ≤ fuel2) :
    piecesGo fuel1 s = piecesGo fuel2 s := by
  induction fuel1 generalizing fuel2 s with
  | zero =>
    have : s = [] := List.eq_nil_of_length_eq_zero (Nat.le_zero.mp h1)
    subst this
    cases fuel2 with
    | zero => rfl
    | succ f2 => rfl
  | succ f1 ih =>
    cases s with
    | nil =>
      cases fuel2 with
      | zero => rfl
      | succ f2 => rfl
    | cons c rest =>
      cases fuel2 with
      | zero => simp at h2
      | succ f2 =>
        simp only [piecesGo]
        cases hm : matchAt (c :: rest) with
        | some p =>
          obtain ⟨m, r⟩ := p
          obtain ⟨hne, hsplit⟩ := matchAt_split hm
          have hlen := congrArg List.length hsplit
          simp only [List.length_append, List.length_cons] at hlen
          have hm0 : 0 < m.length := List.length_pos.mpr hne
          simp only [List.length_cons] at h1 h2
          simp only
          rw [@ih f2 r (by omega) (by omega)]
        | none =>
          simp only [List.length_cons] at h1 h2
          simp only
          rw [@ih f2 rest (by omega) (by omega)]

/-- The defining recurrence of `pieces`. -/
theorem pieces_eq (s : Str) :
    pieces s =
      match s with
      | [] => []
      | c :: rest =>
        match matchAt (c :: rest) with
        | some (m, r) => Piece.tok m :: pieces r
        | none => Piece.gap c :: pieces rest := by
  cases s with
  | nil => rfl
  | cons c rest =>
    simp only [pieces, List.length_cons, piecesGo]
    cases hm : matchAt (c :: rest) with
    | some p =>
      obtain ⟨m, r⟩ := p
      obtain ⟨hne, hsplit⟩ := matchAt_split hm
      have hlen := congrArg List.length hsplit
      simp only [List.length_append, List.length_cons] at hlen
      have hm0 : 0 < m.length := List.length_pos.mpr hne
      simp only
      exact congrArg _ (@piecesGo_fuel rest.length r.length r (by omega) (by omega))
    | none => rfl

/-- The original text of a piece. -/
def Piece.orig : Piece → Str
  | .gap c => [c]
  | .tok m => m

/-- Reassemble the original text from its pieces. -/
def origJoin (ps : List Piece) : Str := (ps.map Piece.orig).flatten

/-- The matched strings of a scan, in order. -/
def toks (ps : List Piece) : List Str :=
  ps.filterMap fun p => match p with | .tok m => some m | .gap _ => none

/-- `PLACEHOLDER_PATTERN.findall(text)` (the single group spans the whole
pattern, so `findall` returns exactly the matched substrings). -/
def findall (text : Str) : List Str := toks (pieces text)

/-- `PLACEHOLDER_PATTERN.sub('', text)`: the unmatched characters. -/
def subEmpty (text : Str) : Str :=
  (pieces text).foldr (fun p acc => match p with | .gap c => c :: acc | .tok _ => acc) []

/- ### The translator (`translator.py`) -/

/-- `UNITS`: unit literals that should not be translated. -/
def UNITS : List Str :=
  [['k', 'g'], ['l', 'b', 's'], ['m', 'l'], ['o', 'z'], ['m', 'i', 'n'],
   ['s', 'e', 'c'], ['h', 'r'], ['k', 'm'], ['m', 'i'], ['f', 't'],
   ['i', 'n'], ['m'], ['c', 'm']]

namespace PlaceholderValidator

/-- `PlaceholderValidator.extract_placeholders`. -/
def extract_placeholders (text : Str) : List Str := findall text

/-- The count-mismatch message of `PlaceholderValidator.validate`. -/
def countMsg (a b : Nat) : Str :=
  (String.data "Placeholder count mismatch: original has ") ++ natRepr a ++
    (String.data ", translated has ") ++ natRepr b

/-- `', '.join(parts)`. -/
def joinComma : List Str → Str
  | [] => []
  | [x] => x
  | x :: xs => x ++ ',' :: ' ' :: joinComma xs

/-- The missing-placeholder message of `PlaceholderValidator.validate`.
Python iterates a `set` in an unspecified order; this model uses the
first-occurrence order of the original text, which is one admissible
order (no claim below depends on the order, only on membership). -/
def missingMsg (missing : List Str) : Str :=
  (String.data "Missing placeholders: ") ++ joinComma missing

/-- The extra-placeholder message of `PlaceholderValidator.validate`. -/
def extraMsg (extra : List Str) : Str :=
  (String.data "Extra placeholders: ") ++ joinComma extra

/-- `PlaceholderValidator.validate(original, translated)`: counts must
match, and the distinct placeholder sets must agree. -/
def validate (original translated : Str) : Bool × Option Str :=
  let op := extract_placeholders original
  let tp := extract_placeholders translated
  if op.length ≠ tp.length then (false, some (countMsg op.length tp.length))
  else
    let missing := (op.dedup).filter fun x => ¬ x ∈ tp
    if missing ≠ [] then (false, some (missingMsg missing))
    else
      let extra := (tp.dedup).filter fun x => ¬ x ∈ op
      if extra ≠ [] then (false, some (extraMsg extra))
      else (true, none)

end PlaceholderValidator

namespace XLIFFTranslator

/-- `XLIFFTranslator.extract_placeholders`: find all matches, then
replace the first occurrence of each match (in order) by its marker. -/
def extract_placeholders (text : Str) : Str × List (Str × Str) :=
  let found := findall text
  found.enum.foldl
    (fun acc im =>
      let mk := marker im.1
      (replaceFirst acc.1 im.2 mk, acc.2 ++ [(mk, im.2)]))
    (text, [])

/-- `XLIFFTranslator.restore_placeholders`. -/
def restore_placeholders (text : Str) (placeholders : List (Str × Str)) : Str :=
  placeholders.foldl (fun t mp => replaceAll t mp.1 mp.2) text

/-- The bare punctuation tokens of `should_skip_translation`. -/
def PUNCT : List Str :=
  [['.'], [','], ['!'], ['?'], ['.', '.', '.'], [':'], [';']]

/-- `XLIFFTranslator.should_skip_translation`. -/
def should_skip_translation (text : Str) : Bool :=
  if text = [] ∨ pyStrip text = [] then true
  else if pyStrip text ∈ UNITS then true
  else
    let clean_text := pyStrip (subEmpty text)
    if clean_text = [] ∨ clean_text ∈ PUNCT then true
    else false

/-- The service-failure message `f"Translation error: {e}"`. -/
def svcErrMsg (e : Str) : Str := (String.data "Translation error: ") ++ e

/-- The validation-failure message
`f"Placeholder validation failed: {error}"`. -/
def valErrMsg (e : Option Str) : Str :=
  (String.data "Placeholder validation failed: ") ++ e.getD []

/-- `XLIFFTranslator.translate_text`, with the external
`GoogleTranslator.translate` call abstracted as `svc` (an exception in
the `try` block is `Except.error`).  Besides the source's returned pair
`(translated_text, error)`, the model also records the list of texts
actually sent to the service, to reason about which calls happen. -/
def translate_textC (svc : Str → Except Str Str) (failOnMismatch : Bool)
    (text : Str) : (Str × Option Str) × List Str :=
  if should_skip_translation text then ((text, none), [])
  else
    let ep := extract_placeholders text
    let text_to_translate := ep.1
    let placeholders := ep.2
    if pyStrip text_to_translate = [] then ((text, none), [])
    else
      match svc text_to_translate with
      | .error e => ((text, some (svcErrMsg e)), [text_to_translate])
      | .ok translated0 =>
        let translated :=
          if placeholders ≠ [] then restore_placeholders translated0 placeholders
          else translated0
        let v := PlaceholderValidator.validate text translated
        if ¬ v.1 ∧ failOnMismatch then ((text, some (valErrMsg v.2)), [text_to_translate])
        else ((translated, none), [text_to_translate])

/-- The source function itself: the `(translated_text, error)` pair. -/
def translate_text (svc : Str → Except Str Str) (failOnMismatch : Bool)
    (text : Str) : Str × Option Str :=
  (translate_textC svc failOnMismatch text).1

end XLIFFTranslator

/- ### Occurrences and replacement -/

theorem replaceAll_nil (pat repl : Str) : replaceAll [] pat repl = [] := rfl

theorem replaceAll_cons (c : Char) (s pat repl : Str) :
    replaceAll (c :: s) pat repl =
      if pat ≠ [] ∧ leadsWith pat (c :: s) then
        repl ++ replaceAll ((c :: s).drop pat.length) pat repl
      else c :: replaceAll s pat repl :=
  replaceAll_eq (c :: s) pat repl

theorem pieces_nil : pieces [] = [] := rfl

theorem pieces_cons_some {c : Char} {rest m r : Str}
    (hm : matchAt (c :: rest) = some (m, r)) :
    pieces (c :: rest) = Piece.tok m :: pieces r := by
  rw [pieces_eq]
  simp only [hm]

theorem pieces_cons_none {c : Char} {rest : Str}
    (hm : matchAt (c :: rest) = none) :
    pieces (c :: rest) = Piece.gap c :: pieces rest := by
  rw [pieces_eq]
  simp only [hm]

theorem leadsWith_iff {pat s : Str} : leadsWith pat s = true ↔ ∃ t, s = pat ++ t := by
  induction pat generalizing s with
  | nil => simp [leadsWith]
  | cons a pat ih =>
    cases s with
    | nil =>
      simp only [leadsWith, List.cons_append]
      constructor
      · intro h; cases h
      · rintro ⟨t, ht⟩; cases ht
    | cons b s =>
      simp only [leadsWith, Bool.and_eq_true, decide_eq_true_eq, ih, List.cons_append]
      constructor
      · rintro ⟨hab, t, ht⟩
        exact ⟨t, by rw [hab, ht]⟩
      · rintro ⟨t, ht⟩
        injection ht with h1 h2
        exact ⟨h1.symm, t, h2⟩

theorem containsSeg_iff {pat s : Str} :
    containsSeg pat s = true ↔ ∃ u w, s = u ++ pat ++ w := by
  induction s with
  | nil =>
    simp only [containsSeg, leadsWith_iff]
    constructor
    · rintro ⟨t, ht⟩
      have hp := List.append_eq_nil.mp ht.symm
      exact ⟨[], [], by simp [hp.1]⟩
    · rintro ⟨u, w, huw⟩
      have h0 := List.append_eq_nil.mp huw.symm
      have h1 := List.append_eq_nil.mp h0.1
      exact ⟨[], by simp [h1.2]⟩
  | cons c s ih =>
    simp only [containsSeg, Bool.or_eq_true, leadsWith_iff, ih]
    constructor
    · rintro (⟨t, ht⟩ | ⟨u, w, huw⟩)
      · exact ⟨[], t, by simpa using ht⟩
      · exact ⟨c :: u, w, by simp [huw]⟩
    · rintro ⟨u, w, huw⟩
      cases u with
      | nil => exact Or.inl ⟨w, by simpa using huw⟩
      | cons a u =>
        injection huw with h1 h2
        exact Or.inr ⟨u, w, h2⟩

/-- No occurrence in a string means no occurrence in a middle factor. -/
theorem containsSeg_of_middle {pat A v B : Str}
    (h : containsSeg pat (A ++ v ++ B) = false) : containsSeg pat v = false := by
  cases hv : containsSeg pat v with
  | false => rfl
  | true =>
    obtain ⟨u, w, huw⟩ := containsSeg_iff.mp hv
    have hall : containsSeg pat (A ++ v ++ B) = true :=
      containsSeg_iff.mpr ⟨A ++ u, w ++ B, by rw [huw]; simp [List.append_assoc]⟩
    rw [h] at hall
    cases hall

theorem leadsWith_refl_append (pat t : Str) : leadsWith pat (pat ++ t) = true :=
  leadsWith_iff.mpr ⟨t, rfl⟩

/-- `str.replace(pat, marker, 1)` on a string whose leftmost occurrence
of `pat` is the exhibited one. -/
theorem replaceFirst_append {A pat B repl : Str} (hpat : pat ≠ [])
    (hno : ∀ u w, A ++ pat ++ B = u ++ pat ++ w → A.length ≤ u.length) :
    replaceFirst (A ++ pat ++ B) pat repl = A ++ repl ++ B := by
  induction A with
  | nil =>
    rcases pat with _ | ⟨p, pat⟩
    · exact absurd rfl hpat
    · simp only [List.nil_append, List.cons_append, replaceFirst]
      rw [if_pos ⟨hpat, by
        have := leadsWith_refl_append (p :: pat) B
        simpa using this⟩]
      show repl ++ List.drop (p :: pat).length ((p :: pat) ++ B) = repl ++ B
      rw [List.drop_left]
  | cons a A ih =>
    have hstep : (a :: A) ++ pat ++ B = a :: (A ++ pat ++ B) := by simp
    rw [hstep]
    simp only [replaceFirst]
    have hnotlead : ¬ (pat ≠ [] ∧ leadsWith pat (a :: (A ++ pat ++ B)) = true) := by
      rintro ⟨-, hlead⟩
      obtain ⟨t, ht⟩ := leadsWith_iff.mp hlead
      have h2 : (a :: A) ++ pat ++ B = [] ++ pat ++ t := by simpa using ht
      have := hno [] t h2
      simp at this
    rw [if_neg hnotlead]
    have hno2 : ∀ u w, A ++ pat ++ B = u ++ pat ++ w → A.length ≤ u.length := by
      intro u w huw
      have h2 : (a :: A) ++ pat ++ B = (a :: u) ++ pat ++ w := by simp [huw]
      have := hno (a :: u) w h2
      simpa using this
    rw [ih hno2]
    simp

/-- `str.replace(pat, repl)` on a string with no occurrence of `pat`. -/
theorem replaceAll_no_occur {s pat repl : Str}
    (hno : ∀ u w, s ≠ u ++ pat ++ w) : replaceAll s pat repl = s := by
  induction s with
  | nil => rfl
  | cons c s ih =>
    rw [replaceAll_cons]
    have hnotlead : ¬ (pat ≠ [] ∧ leadsWith pat (c :: s) = true) := by
      rintro ⟨-, hlead⟩
      obtain ⟨t, ht⟩ := leadsWith_iff.mp hlead
      exact hno [] t (by simpa using ht)
    rw [if_neg hnotlead]
    have hno2 : ∀ u w, s ≠ u ++ pat ++ w := by
      intro u w huw
      exact hno (c :: u) w (by simp [huw])
    rw [ih hno2]

/-- `str.replace(pat, repl)` on a string whose unique occurrence of `pat`
is the exhibited one. -/
theorem replaceAll_single {A pat B repl : Str} (hpat : pat ≠ [])
    (huniq : ∀ u w, A ++ pat ++ B = u ++ pat ++ w → u = A) :
    replaceAll (A ++ pat ++ B) pat repl = A ++ repl ++ B := by
  induction A with
  | nil =>
    rcases pat with _ | ⟨p, pat⟩
    · exact absurd rfl hpat
    · simp only [List.nil_append, List.cons_append]
      rw [replaceAll_cons]
      rw [if_pos ⟨hpat, by
        have := leadsWith_refl_append (p :: pat) B
        simpa using this⟩]
      show repl ++ replaceAll (List.drop (p :: pat).length ((p :: pat) ++ B))
        (p :: pat) repl = repl ++ B
      rw [List.drop_left]
      have hnoB : ∀ u w, B ≠ u ++ (p :: pat) ++ w := by
        intro u w huw
        have h2 : ([] : Str) ++ (p :: pat) ++ B =
            ((p :: pat) ++ u) ++ (p :: pat) ++ w := by
          rw [huw]; simp [List.append_assoc]
        have := huniq ((p :: pat) ++ u) w (by simpa using h2)
        simp [List.append_eq_nil] at this
      rw [replaceAll_no_occur hnoB]
  | cons a A ih =>
    have hstep : (a :: A) ++ pat ++ B = a :: (A ++ pat ++ B) := by simp
    rw [hstep, replaceAll_cons]
    have hnotlead : ¬ (pat ≠ [] ∧ leadsWith pat (a :: (A ++ pat ++ B)) = true) := by
      rintro ⟨-, hlead⟩
      obtain ⟨t, ht⟩ := leadsWith_iff.mp hlead
      have h2 : (a :: A) ++ pat ++ B = [] ++ pat ++ t := by simpa using ht
      have := huniq [] t h2
      simp at this
    rw [if_neg hnotlead]
    have huniq2 : ∀ u w, A ++ pat ++ B = u ++ pat ++ w → u = A := by
      intro u w huw
      have h2 : (a :: A) ++ pat ++ B = (a :: u) ++ pat ++ w := by simp [huw]
      have := huniq (a :: u) w h2
      injection this
    rw [ih huniq2]
    simp

/- ### Structure of pattern matches -/

theorem takeWhile_append_not {p : Char → Bool} {A : Str}
    (hA : ∀ c ∈ A, p c = true) {b : Char} (hb : p b = false) (B : Str) :
    (A ++ b :: B).takeWhile p = A ∧ (A ++ b :: B).dropWhile p = b :: B := by
  induction A with
  | nil => simp [List.takeWhile_cons, List.dropWhile_cons, hb]
  | cons a A ih =>
    have ha : p a = true := hA a (by simp)
    have ih2 := ih (fun c hc => hA c (by simp [hc]))
    simp [List.takeWhile_cons, List.dropWhile_cons, ha, ih2.1, ih2.2]

theorem alt1_inv {s m r : Str} (h : alt1 s = some (m, r)) :
    ∃ run, m = '%' :: run ∧ run ≠ [] ∧ ∀ c ∈ run, isFmtChar c = true := by
  match s with
  | [] => simp [alt1] at h
  | c :: rest =>
    simp only [alt1] at h
    split_ifs at h with hc he
    simp only [Option.some.injEq, Prod.mk.injEq] at h
    subst hc
    exact ⟨rest.takeWhile isFmtChar, by rw [← h.1],
      by simpa [List.isEmpty_iff] using he,
      fun c hc => List.mem_takeWhile_imp hc⟩

theorem alt2_inv {s m r : Str} (h : alt2 s = some (m, r)) :
    ∃ ds ls, m = '%' :: ds ++ '$' :: ls ∧ ds ≠ [] ∧ ls ≠ [] ∧
      (∀ c ∈ ds, isDigitChar c = true) ∧ ∀ c ∈ ls, isFmtChar c = true := by
  match s with
  | [] => simp [alt2] at h
  | c :: rest =>
    simp only [alt2] at h
    split_ifs at h with hc he
    subst hc
    match hdw : rest.dropWhile isDigitChar, h with
    | [], h => simp at h
    | d :: rest2, h =>
      simp only at h
      split_ifs at h with hd hl
      simp only [Option.some.injEq, Prod.mk.injEq] at h
      subst hd
      refine ⟨rest.takeWhile isDigitChar, rest2.takeWhile isFmtChar, by rw [← h.1],
        by simpa [List.isEmpty_iff] using he, by simpa [List.isEmpty_iff] using hl,
        fun c hc => List.mem_takeWhile_imp hc, fun c hc => List.mem_takeWhile_imp hc⟩

theorem alt3_inv {s m r : Str} (h : alt3 s = some (m, r)) :
    ∃ body, m = '$' :: '(' :: body ++ [')'] ∧ ∀ c ∈ body, isDollarBody c = true := by
  match s with
  | [] => simp [alt3] at h
  | [c] => simp [alt3] at h
  | c :: d :: rest =>
    simp only [alt3] at h
    split_ifs at h with hcd
    · obtain ⟨hc, hd⟩ := hcd
      match hdw : rest.dropWhile isDollarBody, h with
      | [], h => simp at h
      | e :: rest2, h =>
        simp only at h
        split_ifs at h with he
        simp only [Option.some.injEq, Prod.mk.injEq] at h
        subst hc; subst hd; subst he
        exact ⟨rest.takeWhile isDollarBody, by rw [← h.1],
          fun c hc => List.mem_takeWhile_imp hc⟩

theorem alt4_inv {s m r : Str} (h : alt4 s = some (m, r)) :
    ∃ ds, m = '{' :: ds ++ ['}'] ∧ ds ≠ [] ∧ ∀ c ∈ ds, isDigitChar c = true := by
  match s with
  | [] => simp [alt4] at h
  | c :: rest =>
    simp only [alt4] at h
    split_ifs at h with hc he
    subst hc
    match hdw : rest.dropWhile isDigitChar, h with
    | [], h => simp at h
    | d :: rest2, h =>
      simp only at h
      split_ifs at h with hd
      simp only [Option.some.injEq, Prod.mk.injEq] at h
      subst hd
      exact ⟨rest.takeWhile isDigitChar, by rw [← h.1],
        by simpa [List.isEmpty_iff] using he, fun c hc => List.mem_takeWhile_imp hc⟩

theorem alt5_inv {s m r : Str} (h : alt5 s = some (m, r)) :
    ∃ d, m = ['°', d] ∧ (d = 'C' ∨ d = 'F') := by
  match s with
  | [] => simp [alt5] at h
  | [c] => simp [alt5] at h
  | c :: d :: rest =>
    simp only [alt5] at h
    split_ifs at h with hcd
    simp only [Option.some.injEq, Prod.mk.injEq] at h
    exact ⟨d, by rw [← h.1, hcd.1], hcd.2⟩

theorem alt6_inv {s m r : Str} (h : alt6 s = some (m, r)) : m = ['💧'] := by
  match s with
  | [] => simp [alt6] at h
  | c :: rest =>
    simp only [alt6] at h
    split_ifs at h with hc
    simp only [Option.some.injEq, Prod.mk.injEq] at h
    rw [← h.1, hc]

/-- If every alternative fails, `matchAt` fails; contrapositive of the
chain structure of `matchAt`. -/
theorem matchAt_none_inv {s : Str} (h : matchAt s = none) :
    alt1 s = none ∧ alt2 s = none ∧ alt3 s = none ∧ alt4 s = none ∧
      alt5 s = none ∧ alt6 s = none := by
  unfold matchAt at h
  cases h1 : alt1 s with
  | some q => rw [h1] at h; cases h
  | none =>
    rw [h1] at h
    cases h2 : alt2 s with
    | some q => rw [h2] at h; cases h
    | none =>
      rw [h2] at h
      cases h3 : alt3 s with
      | some q => rw [h3] at h; cases h
      | none =>
        rw [h3] at h
        cases h4 : alt4 s with
        | some q => rw [h4] at h; cases h
        | none =>
          rw [h4] at h
          cases h5 : alt5 s with
          | some q => rw [h5] at h; cases h
          | none =>
            rw [h5] at h
            exact ⟨rfl, rfl, rfl, rfl, rfl, h⟩

/-- A text matched somewhere still begins a match after any continuation:
the pattern cannot stop matching because the tail changed. -/
theorem matchAt_extend {m v : Str} (h : matchAt (m ++ v) = some (m, v)) (w : Str) :
    matchAt (m ++ w) ≠ none := by
  intro hnone
  obtain ⟨h1, h2, h3, h4, h5, h6⟩ := matchAt_none_inv hnone
  rcases matchAt_cases h with hk | hk | hk | hk | hk | hk
  · obtain ⟨run, hm, hne, hall⟩ := alt1_inv hk
    rcases run with _ | ⟨rc, run⟩
    · exact hne rfl
    · have hrc : isFmtChar rc = true := hall rc (by simp)
      have hgood : alt1 ('%' :: (rc :: (run ++ w))) ≠ none := by
        simp [alt1, List.takeWhile_cons, hrc]
      rw [hm] at h1
      simp only [List.cons_append, List.append_assoc] at h1
      exact hgood h1
  · obtain ⟨ds, ls, hm, hds, hls, hallds, hallls⟩ := alt2_inv hk
    rcases ls with _ | ⟨lc, ls⟩
    · exact hls rfl
    · have hlc : isFmtChar lc = true := hallls lc (by simp)
      have hsp := takeWhile_append_not (p := isDigitChar) hallds
        (b := '$') (by decide) (lc :: (ls ++ w))
      have hgood : alt2 ('%' :: (ds ++ '$' :: (lc :: (ls ++ w)))) ≠ none := by
        simp only [alt2, hsp.1, hsp.2, List.takeWhile_cons, hlc, if_true]
        simp [List.isEmpty_iff, hds]
      rw [hm] at h2
      simp only [List.cons_append, List.append_assoc] at h2 hgood
      exact hgood h2
  · obtain ⟨body, hm, hall⟩ := alt3_inv hk
    have hsp := takeWhile_append_not (p := isDollarBody) hall
      (b := ')') (by decide) w
    have hgood : alt3 ('$' :: '(' :: (body ++ ')' :: w)) ≠ none := by
      simp only [alt3, hsp.1, hsp.2]
      simp
    rw [hm] at h3
    simp only [List.cons_append, List.append_assoc, List.singleton_append] at h3 hgood
    exact hgood h3
  · obtain ⟨ds, hm, hds, hall⟩ := alt4_inv hk
    have hsp := takeWhile_append_not (p := isDigitChar) hall
      (b := '}') (by decide) w
    have hgood : alt4 ('{' :: (ds ++ '}' :: w)) ≠ none := by
      simp only [alt4, hsp.1, hsp.2]
      simp [List.isEmpty_iff, hds]
    rw [hm] at h4
    simp only [List.cons_append, List.append_assoc, List.singleton_append] at h4 hgood
    exact hgood h4
  · obtain ⟨d, hm, hd⟩ := alt5_inv hk
    have hgood : alt5 ('°' :: d :: w) ≠ none := by
      simp [alt5, hd]
    rw [hm] at h5
    simp only [List.cons_append, List.singleton_append] at h5
    exact hgood h5
  · have hm := alt6_inv hk
    have hgood : alt6 ('💧' :: w) ≠ none := by simp [alt6]
    rw [hm] at h6
    simp only [List.cons_append, List.singleton_append] at h6
    exact hgood h6

/-- Characters that can begin a pattern match. -/
def startChar (c : Char) : Bool :=
  c = '%' ∨ c = '$' ∨ c = '{' ∨ c = '°' ∨ c = '💧'

/-- Characters that can end a pattern match. -/
def endChar (c : Char) : Bool :=
  c = '@' ∨ c = 'd' ∨ c = 'l' ∨ c = ')' ∨ c = '}' ∨ c = 'C' ∨ c = 'F' ∨ c = '💧'

theorem mem_of_getLast {l : Str} {a : Char} (h : l.getLast? = some a) : a ∈ l := by
  induction l with
  | nil => cases h
  | cons x l ih =>
    cases l with
    | nil =>
      simp only [List.getLast?_singleton, Option.some.injEq] at h
      simp [h]
    | cons y l =>
      rw [List.getLast?_cons_cons] at h
      simp [ih h]

theorem getLast?_append_right {l1 l2 : Str} (h : l2 ≠ []) :
    (l1 ++ l2).getLast? = l2.getLast? := by
  induction l1 with
  | nil => rfl
  | cons a l1 ih =>
    rcases hcc : l1 ++ l2 with _ | ⟨x, xs⟩
    · exact absurd (List.append_eq_nil.mp hcc).2 h
    · rw [List.cons_append, hcc, List.getLast?_cons_cons, ← hcc, ih]

theorem fmt_endChar {c : Char} (h : isFmtChar c = true) : endChar c = true := by
  simp only [isFmtChar, decide_eq_true_eq] at h
  rcases h with h | h | h <;> subst h <;> decide

/-- Every pattern match is nonempty, begins with a start character, and
ends with an end character. -/
theorem matchAt_shape {s m r : Str} (h : matchAt s = some (m, r)) :
    m ≠ [] ∧ (∀ c, m.head? = some c → startChar c = true) ∧
      ∀ c, m.getLast? = some c → endChar c = true := by
  rcases matchAt_cases h with hk | hk | hk | hk | hk | hk
  · obtain ⟨run, hm, hne, hall⟩ := alt1_inv hk
    subst hm
    refine ⟨by simp, by intro c hc; simp at hc; subst hc; decide, ?_⟩
    intro c hc
    rcases run with _ | ⟨rc, run⟩
    · exact absurd rfl hne
    · rw [List.getLast?_cons_cons] at hc
      exact fmt_endChar (hall c (by simp [mem_of_getLast hc]))
  · obtain ⟨ds, ls, hm, hds, hls, hallds, hallls⟩ := alt2_inv hk
    subst hm
    refine ⟨by simp, by intro c hc; simp at hc; subst hc; decide, ?_⟩
    intro c hc
    rcases ls with _ | ⟨lc, ls⟩
    · exact absurd rfl hls
    · have hshape : '%' :: ds ++ '$' :: lc :: ls =
          ('%' :: ds ++ ['$']) ++ (lc :: ls) := by simp
      rw [hshape, getLast?_append_right (by simp)] at hc
      exact fmt_endChar (hallls c (mem_of_getLast hc))
  · obtain ⟨body, hm, hall⟩ := alt3_inv hk
    subst hm
    refine ⟨by simp, by intro c hc; simp at hc; subst hc; decide, ?_⟩
    intro c hc
    have : ('$' :: '(' :: body ++ [')']).getLast? = some ')' := by
      have := List.getLast?_concat (a := ')') ('$' :: '(' :: body)
      simpa using this
    rw [this] at hc
    injection hc with hc
    subst hc
    decide
  · obtain ⟨ds, hm, hds, hall⟩ := alt4_inv hk
    subst hm
    refine ⟨by simp, by intro c hc; simp at hc; subst hc; decide, ?_⟩
    intro c hc
    have : ('{' :: ds ++ ['}']).getLast? = some '}' := by
      have := List.getLast?_concat (a := '}') ('{' :: ds)
      simpa using this
    rw [this] at hc
    injection hc with hc
    subst hc
    decide
  · obtain ⟨d, hm, hd⟩ := alt5_inv hk
    subst hm
    refine ⟨by simp, by intro c hc; simp at hc; subst hc; decide, ?_⟩
    intro c hc
    simp only [List.getLast?_cons_cons, List.getLast?_singleton, Option.some.injEq] at hc
    subst hc
    rcases hd with hd | hd <;> subst hd <;> decide
  · have hm := alt6_inv hk
    subst hm
    exact ⟨by simp, by intro c hc; simp at hc; subst hc; decide,
      by intro c hc; simp at hc; subst hc; decide⟩

/- ### Markers -/

theorem digit_isDigit : ∀ k < 10, (Char.ofNat (48 + k)).isDigit = true := by decide

theorem natRepr_digits {n : Nat} : ∀ c ∈ natRepr n, c.isDigit = true := by
  induction n using Nat.strong_induction_on with
  | _ n ih =>
    rw [natRepr_eq]
    by_cases hn : n < 10
    · simp only [hn, if_true]
      intro c hc
      simp only [List.mem_singleton] at hc
      subst hc
      exact digit_isDigit n hn
    · simp only [hn, if_false]
      intro c hc
      rcases List.mem_append.mp hc with hc | hc
      · exact ih (n / 10) (Nat.div_lt_self (by omega) (by omega)) c hc
      · simp only [List.mem_singleton] at hc
        subst hc
        exact digit_isDigit _ (Nat.mod_lt n (by omega))

theorem natRepr_ne_nil {n : Nat} : natRepr n ≠ [] := by
  rw [natRepr_eq]
  by_cases hn : n < 10 <;> simp [hn]

theorem digitChar_inj : ∀ a < 10, ∀ b < 10,
    Char.ofNat (48 + a) = Char.ofNat (48 + b) → a = b := by decide

theorem natRepr_inj {a b : Nat} (h : natRepr a = natRepr b) : a = b := by
  induction a using Nat.strong_induction_on generalizing b with
  | _ a ih =>
    rw [natRepr_eq a, natRepr_eq b] at h
    by_cases ha : a < 10 <;> by_cases hb : b < 10
    · simp only [ha, hb, if_true, List.cons.injEq] at h
      exact digitChar_inj a ha b hb h.1
    · simp only [ha, hb, if_true, if_false] at h
      have hlen := congrArg List.length h
      simp only [List.length_singleton, List.length_append] at hlen
      have hpos := List.length_pos.mpr (natRepr_ne_nil (n := b / 10))
      omega
    · simp only [ha, hb, if_true, if_false] at h
      have hlen := congrArg List.length h
      simp only [List.length_singleton, List.length_append] at hlen
      have hpos := List.length_pos.mpr (natRepr_ne_nil (n := a / 10))
      omega
    · simp only [ha, hb, if_false] at h
      have h2 := congrArg List.reverse h
      simp only [List.reverse_append, List.reverse_singleton, List.cons_append,
        List.nil_append, List.cons.injEq] at h2
      have hmod : a % 10 = b % 10 :=
        digitChar_inj _ (Nat.mod_lt a (by omega)) _ (Nat.mod_lt b (by omega)) h2.1
      have hdiv : a / 10 = b / 10 := by
        have := congrArg List.reverse h2.2
        simp only [List.reverse_reverse] at this
        exact ih (a / 10) (Nat.div_lt_self (by omega) (by omega)) this
      omega

theorem marker_mem {i : Nat} {c : Char} (h : c ∈ marker i) :
    c = '_' ∨ c = 'P' ∨ c = 'H' ∨ c.isDigit = true := by
  unfold marker at h
  simp only [List.mem_cons, List.mem_append, List.mem_singleton] at h
  rcases h with (h | h | h | h | h) | h | h | h
  · exact Or.inl h
  · exact Or.inl h
  · exact Or.inr (Or.inl h)
  · exact Or.inr (Or.inr (Or.inl h))
  · exact Or.inr (Or.inr (Or.inr (natRepr_digits c h)))
  · exact Or.inl h
  · exact Or.inl h
  · exact absurd h (List.not_mem_nil c)

/-- Distinct markers: the decimal part determines the index even when
followed by further text. -/
theorem marker_digits_det {a b : Nat} {u v : Str}
    (h : natRepr a ++ '_' :: '_' :: u = natRepr b ++ '_' :: '_' :: v) : a = b := by
  rcases List.append_eq_append_iff.mp h with ⟨t, ht1, ht2⟩ | ⟨t, ht1, ht2⟩
  · cases t with
    | nil => exact natRepr_inj (by simpa using ht1.symm)
    | cons c t =>
      have hc : c ∈ natRepr b := by rw [ht1]; simp
      have hdig := natRepr_digits c hc
      injection ht2 with h1 h2
      subst h1
      simp at hdig
  · cases t with
    | nil => exact natRepr_inj (by simpa using ht1)
    | cons c t =>
      have hc : c ∈ natRepr a := by rw [ht1]; simp
      have hdig := natRepr_digits c hc
      injection ht2 with h1 h2
      rw [← h1] at hdig
      simp at hdig

/- ### The scan decomposition -/

theorem origJoin_nil : origJoin [] = [] := rfl

theorem origJoin_cons_gap (c : Char) (ps : List Piece) :
    origJoin (Piece.gap c :: ps) = c :: origJoin ps := rfl

theorem origJoin_cons_tok (m : Str) (ps : List Piece) :
    origJoin (Piece.tok m :: ps) = m ++ origJoin ps := by
  simp [origJoin, Piece.orig]

theorem origJoin_append (A B : List Piece) :
    origJoin (A ++ B) = origJoin A ++ origJoin B := by
  simp [origJoin]

/-- The scan is faithful: every gap position is a position where the
pattern fails, and every token is a match against the rest of the text. -/
inductive ScanWF : List Piece → Prop
  | nil : ScanWF []
  | gap {c : Char} {ps : List Piece} :
      matchAt (c :: origJoin ps) = none → ScanWF ps → ScanWF (Piece.gap c :: ps)
  | tok {m : Str} {ps : List Piece} :
      matchAt (m ++ origJoin ps) = some (m, origJoin ps) → ScanWF ps →
        ScanWF (Piece.tok m :: ps)

theorem pieces_join_aux : ∀ (n : Nat) (s : Str), s.length ≤ n →
    origJoin (pieces s) = s := by
  intro n
  induction n with
  | zero =>
    intro s hs
    have : s = [] := List.eq_nil_of_length_eq_zero (Nat.le_zero.mp hs)
    subst this
    rfl
  | succ n ih =>
    intro s hs
    cases s with
    | nil => rfl
    | cons c rest =>
      cases hm : matchAt (c :: rest) with
      | some p =>
        obtain ⟨m, r⟩ := p
        obtain ⟨hne, hsplit⟩ := matchAt_split hm
        rw [pieces_cons_some hm, origJoin_cons_tok]
        have hlen := congrArg List.length hsplit
        simp only [List.length_append, List.length_cons] at hlen
        have hm0 : 0 < m.length := List.length_pos.mpr hne
        simp only [List.length_cons] at hs
        rw [ih r (by omega), hsplit]
      | none =>
        rw [pieces_cons_none hm, origJoin_cons_gap]
        simp only [List.length_cons] at hs
        rw [ih rest (by omega)]

/-- Reassembling the scan of a text yields the text. -/
theorem pieces_join (s : Str) : origJoin (pieces s) = s :=
  pieces_join_aux s.length s (le_refl _)

theorem pieces_wf_aux : ∀ (n : Nat) (s : Str), s.length ≤ n → ScanWF (pieces s) := by
  intro n
  induction n with
  | zero =>
    intro s hs
    have : s = [] := List.eq_nil_of_length_eq_zero (Nat.le_zero.mp hs)
    subst this
    exact ScanWF.nil
  | succ n ih =>
    intro s hs
    cases s with
    | nil => exact ScanWF.nil
    | cons c rest =>
      cases hm : matchAt (c :: rest) with
      | some p =>
        obtain ⟨m, r⟩ := p
        obtain ⟨hne, hsplit⟩ := matchAt_split hm
        rw [pieces_cons_some hm]
        have hlen := congrArg List.length hsplit
        simp only [List.length_append, List.length_cons] at hlen
        have hm0 : 0 < m.length := List.length_pos.mpr hne
        simp only [List.length_cons] at hs
        refine ScanWF.tok ?_ (ih r (by omega))
        rw [pieces_join_aux n r (by omega), hsplit]
        exact hm
      | none =>
        rw [pieces_cons_none hm]
        simp only [List.length_cons] at hs
        refine ScanWF.gap ?_ (ih rest (by omega))
        rw [pieces_join_aux n rest (by omega)]
        exact hm

/-- The scan of a text is well formed. -/
theorem pieces_wf (s : Str) : ScanWF (pieces s) :=
  pieces_wf_aux s.length s (le_refl _)

theorem ScanWF.tail {p : Piece} {ps : List Piece} (h : ScanWF (p :: ps)) : ScanWF ps := by
  cases h with
  | gap _ h2 => exact h2
  | tok _ h2 => exact h2

theorem ScanWF.of_append {A B : List Piece} (h : ScanWF (A ++ B)) : ScanWF B := by
  induction A with
  | nil => exact h
  | cons p A ih => exact ih (ScanWF.tail h)

/- ### Rendering with markers -/

/-- Render the pieces with every token replaced by its marker, numbering
tokens from `i`: the final `modified_text` of `extract_placeholders`. -/
def renderM (i : Nat) : List Piece → Str
  | [] => []
  | Piece.gap c :: ps => c :: renderM i ps
  | Piece.tok _ :: ps => marker i ++ renderM (i + 1) ps

/-- Render the pieces with tokens of index `< k` restored to their text
and tokens of index `≥ k` still markers (numbering from `i`): the
intermediate states of `restore_placeholders`. -/
def mixR (k i : Nat) : List Piece → Str
  | [] => []
  | Piece.gap c :: ps => c :: mixR k i ps
  | Piece.tok m :: ps => (if i < k then m else marker i) ++ mixR k (i + 1) ps

theorem toks_nil : toks [] = [] := rfl

theorem toks_cons_gap (c : Char) (ps : List Piece) :
    toks (Piece.gap c :: ps) = toks ps := by
  simp [toks, List.filterMap_cons]

theorem toks_cons_tok (m : Str) (ps : List Piece) :
    toks (Piece.tok m :: ps) = m :: toks ps := by
  simp [toks, List.filterMap_cons]

theorem renderM_append : ∀ (A B : List Piece) (i : Nat),
    renderM i (A ++ B) = renderM i A ++ renderM (i + (toks A).length) B := by
  intro A
  induction A with
  | nil => intro B i; simp [renderM, toks]
  | cons p A ih =>
    intro B i
    cases p with
    | gap c =>
      simp only [List.cons_append, renderM, toks_cons_gap]
      have hAB : List.append A B = A ++ B := rfl
      rw [hAB, ih]
    | tok m =>
      simp only [List.cons_append, renderM, toks_cons_tok, List.length_cons]
      have hAB : List.append A B = A ++ B := rfl
      rw [hAB, ih]
      simp only [List.append_assoc]
      congr 3
      omega

theorem mixR_append : ∀ (A B : List Piece) (k i : Nat),
    mixR k i (A ++ B) = mixR k i A ++ mixR k (i + (toks A).length) B := by
  intro A
  induction A with
  | nil => intro B k i; simp [mixR, toks]
  | cons p A ih =>
    intro B k i
    cases p with
    | gap c =>
      simp only [List.cons_append, mixR, toks_cons_gap]
      have hAB : List.append A B = A ++ B := rfl
      rw [hAB, ih]
    | tok m =>
      simp only [List.cons_append, mixR, toks_cons_tok, List.length_cons]
      have hAB : List.append A B = A ++ B := rfl
      rw [hAB, ih]
      simp only [List.append_assoc]
      congr 3
      omega

/-- When every token index is below `k`, the mixed rendering is the
original text. -/
theorem mixR_all_lt {k i : Nat} {ps : List Piece}
    (h : i + (toks ps).length ≤ k) : mixR k i ps = origJoin ps := by
  induction ps generalizing i with
  | nil => rfl
  | cons p ps ih =>
    cases p with
    | gap c =>
      simp only [mixR, origJoin_cons_gap]
      rw [ih]
      simpa [toks_cons_gap] using h
    | tok m =>
      simp only [mixR, origJoin_cons_tok]
      simp only [toks_cons_tok, List.length_cons] at h
      rw [if_pos (by omega), ih (by omega)]

/-- When every token index is at least `k`, the mixed rendering is the
fully marked rendering. -/
theorem mixR_all_ge {k i : Nat} (ps : List Piece) (h : k ≤ i) :
    mixR k i ps = renderM i ps := by
  induction ps generalizing i with
  | nil => rfl
  | cons p ps ih =>
    cases p with
    | gap c => simp only [mixR, renderM]; rw [ih h]
    | tok m =>
      simp only [mixR, renderM]
      rw [if_neg (by omega), @ih (i + 1) (by omega)]

/- ### Extraction: the fold of replace-first steps renders the scan -/

theorem endChar_not_marker {c : Char} (h1 : endChar c = true)
    (h2 : c = '_' ∨ c = 'P' ∨ c = 'H' ∨ c.isDigit = true) : False := by
  simp only [endChar, decide_eq_true_eq] at h1
  rcases h1 with h | h | h | h | h | h | h | h <;> subst h <;> revert h2 <;> decide

theorem startChar_not_marker {c : Char} (h1 : startChar c = true)
    (h2 : c = '_' ∨ c = 'P' ∨ c = 'H' ∨ c.isDigit = true) : False := by
  simp only [startChar, decide_eq_true_eq] at h1
  rcases h1 with h | h | h | h | h <;> subst h <;> revert h2 <;> decide

theorem ScanWF.gap_fact {c : Char} {ps : List Piece} (h : ScanWF (Piece.gap c :: ps)) :
    matchAt (c :: origJoin ps) = none := by
  cases h with
  | gap h1 _ => exact h1

theorem ScanWF.tok_fact {m : Str} {ps : List Piece} (h : ScanWF (Piece.tok m :: ps)) :
    matchAt (m ++ origJoin ps) = some (m, origJoin ps) := by
  cases h with
  | tok h1 _ => exact h1

theorem toks_append (A B : List Piece) : toks (A ++ B) = toks A ++ toks B := by
  simp [toks, List.filterMap_append]

/-- A marker begins with a double underscore and `PH`, so any string
with a marker as leading segment contains the two-character run `PH`. -/
theorem containsSeg_PH_of_marker_led {i : Nat} {x : Str} :
    containsSeg ['P', 'H'] (marker i ++ x) = true := by
  refine containsSeg_iff.mpr ⟨['_', '_'], natRepr i ++ '_' :: '_' :: x, ?_⟩
  simp [marker]

/-- Bridge: a pattern match that leads a marked rendering (continued by
any tail) also leads the corresponding original rendering, because a
match can neither contain `PH` nor stop inside a marker. -/
theorem bridge : ∀ (ps : List Piece) (i : Nat) (T m : Str),
    containsSeg ['P', 'H'] m = false →
    (∀ c, m.getLast? = some c → endChar c = true) →
    (∃ t, renderM i ps ++ T = m ++ t) →
    ∃ t, origJoin ps ++ T = m ++ t := by
  intro ps
  induction ps with
  | nil => intro i T m _ _ h; exact h
  | cons p ps ih =>
    cases p with
    | gap c =>
      intro i T m hPH hlast h
      rcases m with _ | ⟨a, m⟩
      · exact ⟨origJoin (Piece.gap c :: ps) ++ T, by simp⟩
      · obtain ⟨t, ht⟩ := h
        simp only [renderM, List.cons_append] at ht
        injection ht with h1 h2
        subst h1
        have hPH2 : containsSeg ['P', 'H'] m = false := by
          simp only [containsSeg, Bool.or_eq_false_iff] at hPH
          exact hPH.2
        have hlast2 : ∀ c2, m.getLast? = some c2 → endChar c2 = true := by
          intro c2 hc2
          rcases m with _ | ⟨b, m⟩
          · cases hc2
          · exact hlast c2 (by rw [List.getLast?_cons_cons]; exact hc2)
        obtain ⟨t2, ht2⟩ := ih i T m hPH2 hlast2 ⟨t, h2⟩
        exact ⟨t2, by simp only [origJoin_cons_gap, List.cons_append, ht2]⟩
    | tok w =>
      intro i T m hPH hlast h
      obtain ⟨t, ht⟩ := h
      simp only [renderM, List.append_assoc] at ht
      rcases List.append_eq_append_iff.mp ht with ⟨x, hx1, hx2⟩ | ⟨x, hx1, hx2⟩
      · -- m extends over the whole marker: m contains PH, impossible
        rw [hx1, containsSeg_PH_of_marker_led] at hPH
        cases hPH
      · -- the marker extends at least to the end of m
        rcases m with _ | ⟨a, m⟩
        · exact ⟨origJoin (Piece.tok w :: ps) ++ T, by simp⟩
        · rcases x with _ | ⟨b, x⟩
          · -- m = marker i: m contains PH, impossible
            rw [List.append_nil] at hx1
            rw [← hx1] at hPH
            have : containsSeg ['P', 'H'] (marker i) = true := by
              have := containsSeg_PH_of_marker_led (i := i) (x := [])
              simpa using this
            rw [this] at hPH
            cases hPH
          · -- m stops strictly inside the marker: its last character is
            -- a marker character, impossible for an end character
            obtain ⟨cl, hcl⟩ : ∃ cl, (a :: m).getLast? = some cl := by
              rcases hgl : (a :: m).getLast? with _ | ⟨cl⟩
              · simp at hgl
              · exact ⟨cl, rfl⟩
            have hclm : cl ∈ marker i := by
              rw [hx1]
              exact List.mem_append_left _ (mem_of_getLast hcl)
            exact absurd (marker_mem hclm) (by
              intro h2
              exact endChar_not_marker (hlast cl hcl) h2)

/-- No occurrence of the token `m` begins strictly before the marked
prefix ends: the key fact making `str.replace(ph, marker, 1)` hit the
intended occurrence. -/
theorem no_early_occurrence :
    ∀ (pre : List Piece) (i : Nat) (post : List Piece) (m : Str),
      ScanWF (pre ++ Piece.tok m :: post) →
      matchAt (m ++ origJoin post) = some (m, origJoin post) →
      containsSeg ['P', 'H'] m = false →
      ∀ u w, renderM i pre ++ m ++ origJoin post = u ++ m ++ w →
        (renderM i pre).length ≤ u.length := by
  intro pre
  induction pre with
  | nil => intro i post m _ _ _ u w _; simp [renderM]
  | cons p pre ih =>
    cases p with
    | gap c =>
      intro i post m hwf hm hPH u w hu
      obtain ⟨hmne, hstart, hend⟩ := matchAt_shape hm
      cases u with
      | nil =>
        -- an occurrence at the very start: the text would match here,
        -- contradicting the gap
        simp only [List.nil_append] at hu
        have hlead : ∃ t, renderM i (Piece.gap c :: pre) ++ (m ++ origJoin post) =
            m ++ t := ⟨w, by
          simp only [renderM, List.cons_append, List.append_assoc]
          simp only [renderM, List.cons_append, List.append_assoc] at hu
          exact hu⟩
        obtain ⟨t, ht⟩ := bridge (Piece.gap c :: pre) i (m ++ origJoin post) m hPH hend hlead
        have horig : origJoin (Piece.gap c :: pre) ++ (m ++ origJoin post) =
            c :: origJoin (pre ++ Piece.tok m :: post) := by
          simp [origJoin_cons_gap, origJoin_append, origJoin_cons_tok]
        rw [horig] at ht
        have hgap := (hwf : ScanWF (Piece.gap c :: (pre ++ Piece.tok m :: post))).gap_fact
        exact absurd ((congrArg matchAt ht).symm.trans hgap) (matchAt_extend hm t)
      | cons a u =>
        simp only [renderM, List.cons_append] at hu
        injection hu with h1 h2
        have := ih i post m hwf.tail hm hPH u w h2
        simp only [renderM, List.length_cons]
        omega
    | tok w0 =>
      intro i post m hwf hm hPH u w hu
      obtain ⟨hmne, hstart, hend⟩ := matchAt_shape hm
      simp only [renderM, List.append_assoc] at hu
      rcases List.append_eq_append_iff.mp hu with ⟨x, hx1, hx2⟩ | ⟨x, hx1, hx2⟩
      · -- the occurrence begins after the marker
        have := ih (i + 1) post m hwf.tail hm hPH x w (by
          simpa only [← List.append_assoc] using hx2)
        rw [hx1]
        simp only [renderM, List.length_append]
        omega
      · -- the occurrence would begin inside the marker
        rcases x with _ | ⟨b, x⟩
        · -- exactly at the end of the marker
          rw [List.append_nil] at hx1
          have := ih (i + 1) post m hwf.tail hm hPH [] w (by
            simpa only [List.nil_append, ← List.append_assoc] using hx2.symm)
          rw [← hx1]
          simp only [renderM, List.length_append, List.length_nil] at this ⊢
          omega
        · -- strictly inside: the head of `m` would be a marker character
          rcases m with _ | ⟨a, m⟩
          · exact absurd rfl hmne
          · have hbm : b ∈ marker i := by
              rw [hx1]; exact List.mem_append_right _ (by simp)
            have hab : a = b := by
              have h2 := congrArg List.head? hx2
              simpa using h2
            rw [hab] at hstart
            exact absurd (marker_mem hbm) (by
              intro h2
              exact startChar_not_marker (hstart b rfl) h2)

/-- The fold of `extract_placeholders` splits into its text component and
its placeholder-list component. -/
theorem extract_fold_split (l : List (Nat × Str)) :
    ∀ (t : Str) (p : List (Str × Str)),
      l.foldl (fun acc im =>
          (replaceFirst acc.1 im.2 (marker im.1), acc.2 ++ [(marker im.1, im.2)]))
        (t, p) =
      (l.foldl (fun t2 im => replaceFirst t2 im.2 (marker im.1)) t,
        p ++ l.map (fun im => (marker im.1, im.2))) := by
  induction l with
  | nil => intro t p; simp
  | cons im l ih =>
    intro t p
    simp only [List.foldl_cons, List.map_cons]
    rw [ih]
    simp

/-- Processing the enumerated matches left to right turns the original
rendering into the marked rendering, one marker at a time. -/
theorem extract_fold_text :
    ∀ (rest pre : List Piece) (k : Nat),
      ScanWF (pre ++ rest) →
      containsSeg ['P', 'H'] (origJoin (pre ++ rest)) = false →
      (toks pre).length = k →
      (List.enumFrom k (toks rest)).foldl
          (fun t2 im => replaceFirst t2 im.2 (marker im.1))
          (renderM 0 pre ++ origJoin rest) =
        renderM 0 pre ++ renderM k rest := by
  intro rest
  induction rest with
  | nil => intro pre k _ _ _; simp [toks, origJoin_nil, renderM]
  | cons p rest ih =>
    cases p with
    | gap c =>
      intro pre k hwf hPH hk
      have hassoc : pre ++ Piece.gap c :: rest = (pre ++ [Piece.gap c]) ++ rest := by
        simp
      have hinit : renderM 0 pre ++ origJoin (Piece.gap c :: rest) =
          renderM 0 (pre ++ [Piece.gap c]) ++ origJoin rest := by
        rw [renderM_append, origJoin_cons_gap]
        simp [renderM]
      rw [toks_cons_gap, hinit]
      rw [ih (pre ++ [Piece.gap c]) k (by rw [← hassoc]; exact hwf)
        (by rw [← hassoc]; exact hPH)
        (by rw [toks_append, toks_cons_gap, toks_nil]; simpa using hk)]
      rw [renderM_append]
      simp [renderM]
    | tok m =>
      intro pre k hwf hPH hk
      have hassoc : pre ++ Piece.tok m :: rest = (pre ++ [Piece.tok m]) ++ rest := by
        simp
      have hwf2 : ScanWF (pre ++ Piece.tok m :: rest) := hwf
      have hm : matchAt (m ++ origJoin rest) = some (m, origJoin rest) :=
        (ScanWF.of_append (A := pre) hwf2).tok_fact
      have hPHm : containsSeg ['P', 'H'] m = false := by
        refine containsSeg_of_middle (A := origJoin pre) (B := origJoin rest) ?_
        have : origJoin (pre ++ Piece.tok m :: rest) =
            origJoin pre ++ m ++ origJoin rest := by
          rw [origJoin_append, origJoin_cons_tok, List.append_assoc]
        rw [← this]
        exact hPH
      obtain ⟨hmne, -, -⟩ := matchAt_shape hm
      rw [toks_cons_tok, List.enumFrom_cons, List.foldl_cons]
      have hstep : replaceFirst (renderM 0 pre ++ origJoin (Piece.tok m :: rest))
          m (marker k) = renderM 0 pre ++ marker k ++ origJoin rest := by
        have h1 : renderM 0 pre ++ origJoin (Piece.tok m :: rest) =
            renderM 0 pre ++ m ++ origJoin rest := by
          rw [origJoin_cons_tok, List.append_assoc]
        rw [h1]
        exact replaceFirst_append hmne
          (no_early_occurrence pre 0 rest m hwf2 hm hPHm)
      simp only [hstep]
      have hras : renderM 0 pre ++ marker k ++ origJoin rest =
          renderM 0 (pre ++ [Piece.tok m]) ++ origJoin rest := by
        rw [renderM_append]
        simp only [renderM, hk, Nat.zero_add, List.append_nil, List.append_assoc]
      rw [hras]
      rw [ih (pre ++ [Piece.tok m]) (k + 1) (by rw [← hassoc]; exact hwf)
        (by rw [← hassoc]; exact hPH)
        (by rw [toks_append, toks_cons_tok, toks_nil]; simp [hk])]
      rw [renderM_append]
      simp only [renderM, hk, Nat.zero_add, List.append_nil, List.append_assoc]

/-- `extract_placeholders` on a `PH`-free text produces the marked
rendering of the scan together with the enumerated (marker, match)
pairs. -/
theorem extract_renders {text : Str}
    (hPH : containsSeg ['P', 'H'] text = false) :
    XLIFFTranslator.extract_placeholders text =
      (renderM 0 (pieces text),
        (List.enumFrom 0 (toks (pieces text))).map
          (fun im => (marker im.1, im.2))) := by
  unfold XLIFFTranslator.extract_placeholders
  simp only [findall, List.enum_eq_enumFrom]
  rw [extract_fold_split]
  have htext := extract_fold_text (pieces text) [] 0 (by simpa using pieces_wf text)
    (by simpa [pieces_join] using hPH) (by simp [toks])
  simp only [renderM, List.nil_append, pieces_join] at htext
  rw [htext]
  simp

/- ### Restoration: each marker occurs exactly once -/

/-- Flatten an alternating chunk list: each chunk is a marker followed by
an original-text run. -/
def flatC (cs : List (Nat × Str)) : Str :=
  (cs.map (fun jc => marker jc.1 ++ jc.2)).flatten

/-- The alternating form of a fully marked rendering: a leading
original-text run, then marker/original-run chunks. -/
def altForm (i : Nat) : List Piece → Str × List (Nat × Str)
  | [] => ([], [])
  | Piece.gap c :: ps => ((altForm i ps).1.cons c, (altForm i ps).2)
  | Piece.tok _ :: ps => ([], (i, (altForm (i + 1) ps).1) :: (altForm (i + 1) ps).2)

theorem flatC_nil : flatC [] = [] := rfl

theorem flatC_cons (j : Nat) (O : Str) (cs : List (Nat × Str)) :
    flatC ((j, O) :: cs) = marker j ++ O ++ flatC cs := by
  simp [flatC]

theorem altForm_flat (i : Nat) (ps : List Piece) :
    (altForm i ps).1 ++ flatC (altForm i ps).2 = renderM i ps := by
  induction ps generalizing i with
  | nil => rfl
  | cons p ps ih =>
    cases p with
    | gap c =>
      simp only [altForm, renderM, List.cons_append]
      rw [← ih i]
    | tok m =>
      simp only [altForm, renderM, List.nil_append, flatC_cons]
      rw [← ih (i + 1)]
      simp [List.append_assoc]

theorem containsSeg_tail {pat : Str} {c : Char} {s : Str}
    (h : containsSeg pat (c :: s) = false) : containsSeg pat s = false := by
  simp only [containsSeg, Bool.or_eq_false_iff] at h
  exact h.2

theorem containsSeg_of_lead {pat v t s : Str}
    (h : containsSeg pat s = false) (hs : s = v ++ t) : containsSeg pat v = false := by
  refine containsSeg_of_middle (A := []) (v := v) (B := t) ?_
  simpa [← hs] using h

/-- The leading run of the alternating form is a leading segment of the
original text. -/
theorem altForm_lead : ∀ (ps : List Piece) (i : Nat),
    ∃ t, origJoin ps = (altForm i ps).1 ++ t := by
  intro ps
  induction ps with
  | nil => intro i; exact ⟨[], rfl⟩
  | cons q ps ih =>
    cases q with
    | gap d =>
      intro i
      obtain ⟨t, ht⟩ := ih i
      exact ⟨t, by simp only [altForm, origJoin_cons_gap, ht]; rfl⟩
    | tok w =>
      intro i
      exact ⟨origJoin (Piece.tok w :: ps), by simp [altForm]⟩

/-- The original-text components of the alternating form of a `PH`-free
scan contain no `PH`. -/
theorem altForm_noPH {ps : List Piece} :
    ∀ (i : Nat), containsSeg ['P', 'H'] (origJoin ps) = false →
      containsSeg ['P', 'H'] (altForm i ps).1 = false ∧
        ∀ jc ∈ (altForm i ps).2, containsSeg ['P', 'H'] jc.2 = false := by
  induction ps with
  | nil => intro i _; exact ⟨rfl, by simp [altForm]⟩
  | cons p ps ih =>
    cases p with
    | gap c =>
      intro i h
      rw [origJoin_cons_gap] at h
      obtain ⟨h1, h2⟩ := ih i (containsSeg_tail h)
      constructor
      · obtain ⟨t, ht⟩ := altForm_lead ps i
        exact containsSeg_of_lead h (by
          simp only [altForm, List.cons_append]
          rw [ht])
      · simpa [altForm] using h2
    | tok m =>
      intro i h
      rw [origJoin_cons_tok] at h
      have hps : containsSeg ['P', 'H'] (origJoin ps) = false := by
        refine containsSeg_of_middle (A := m) (B := []) ?_
        simpa using h
      obtain ⟨h1, h2⟩ := ih (i + 1) hps
      refine ⟨rfl, ?_⟩
      intro jc hjc
      simp only [altForm, List.mem_cons] at hjc
      rcases hjc with hjc | hjc
      · rw [hjc]
        exact h1
      · exact h2 jc hjc

/-- `P` occurs in a marker only at its third position. -/
theorem marker_P_split {j : Nat} {x z : Str} (h : marker j = x ++ 'P' :: z) :
    x = ['_', '_'] ∧ z = 'H' :: (natRepr j ++ ['_', '_']) := by
  have hnoP : 'P' ∉ 'H' :: (natRepr j ++ ['_', '_']) := by
    intro hm
    simp only [List.mem_cons, List.mem_append] at hm
    rcases hm with hm | hm | hm
    · exact absurd hm (by decide)
    · exact absurd (natRepr_digits 'P' hm) (by decide)
    · revert hm
      decide
  unfold marker at h
  rcases x with _ | ⟨a, x⟩
  · injection h with h1 _
    exact absurd h1 (by decide)
  rcases x with _ | ⟨b, x⟩
  · injection h with h1 h2
    injection h2 with h2 _
    exact absurd h2 (by decide)
  rcases x with _ | ⟨c, x⟩
  · injection h with h1 h2
    injection h2 with h2 h3
    injection h3 with h3 h4
    subst h1; subst h2
    exact ⟨rfl, h4.symm⟩
  · injection h with h1 h2
    injection h2 with h2 h3
    injection h3 with h3 h4
    exfalso
    apply hnoP
    have hh : ('H' :: natRepr j).append ['_', '_'] = ('H' :: natRepr j) ++ ['_', '_'] := rfl
    have hh2 : x.append ('P' :: z) = x ++ 'P' :: z := rfl
    rw [hh, hh2] at h4
    have h5 : 'P' ∈ ('H' :: natRepr j) ++ ['_', '_'] := by rw [h4]; simp
    simpa using h5

/-- Locate a `PH` run in an alternating string: with `PH`-free
components it can only be the `PH` of one of the markers. -/
theorem core_PH : ∀ (cs : List (Nat × Str)) (L u v : Str),
    containsSeg ['P', 'H'] L = false →
    (∀ jc ∈ cs, containsSeg ['P', 'H'] jc.2 = false) →
    L ++ flatC cs = u ++ 'P' :: 'H' :: v →
    ∃ cpre j O cpost, cs = cpre ++ (j, O) :: cpost ∧
      u = L ++ flatC cpre ++ ['_', '_'] ∧
      v = natRepr j ++ '_' :: '_' :: (O ++ flatC cpost) := by
  intro cs
  induction cs with
  | nil =>
    intro L u v hL _ heq
    rw [flatC_nil, List.append_nil] at heq
    exfalso
    have hc : containsSeg ['P', 'H'] L = true :=
      containsSeg_iff.mpr ⟨u, v, by simpa using heq⟩
    rw [hL] at hc
    cases hc
  | cons jc cs ih =>
    obtain ⟨j, O⟩ := jc
    intro L u v hL hcs heq
    rw [flatC_cons, List.append_assoc] at heq
    -- heq : L ++ (marker j ++ (O ++ flatC cs)) = u ++ 'P' :: 'H' :: v
    rcases List.append_eq_append_iff.mp heq with ⟨x, hx1, hx2⟩ | ⟨x, hx1, hx2⟩
    · -- the run begins at or after the marker
      rcases List.append_eq_append_iff.mp hx2 with ⟨y, hy1, hy2⟩ | ⟨y, hy1, hy2⟩
      · -- strictly after the marker: recurse into the tail
        have hO : containsSeg ['P', 'H'] O = false := hcs (j, O) (by simp)
        have hcs2 : ∀ jc ∈ cs, containsSeg ['P', 'H'] jc.2 = false :=
          fun jc hjc => hcs jc (by simp [hjc])
        obtain ⟨cpre, j2, O2, cpost, hsplit, hu, hv⟩ := ih O y v hO hcs2 hy2
        refine ⟨(j, O) :: cpre, j2, O2, cpost, by rw [hsplit]; simp, ?_, hv⟩
        rw [hx1, hy1, hu]
        simp [flatC_cons, List.append_assoc]
      · -- the run begins inside (or at the very end of) the marker
        rcases y with _ | ⟨c, y⟩
        · -- at the very end: the tail would begin with `PH`, but the
          -- following component is `PH`-free and the next marker starts
          -- with an underscore
          rw [List.append_nil] at hy1
          simp only [List.nil_append] at hy2
          have hO : containsSeg ['P', 'H'] O = false := hcs (j, O) (by simp)
          have hcs2 : ∀ jc ∈ cs, containsSeg ['P', 'H'] jc.2 = false :=
            fun jc hjc => hcs jc (by simp [hjc])
          obtain ⟨cpre, j2, O2, cpost, hsplit, hu, hv⟩ :=
            ih O [] v hO hcs2 (by simpa using hy2.symm)
          exfalso
          have hlen := congrArg List.length hu
          simp only [List.length_nil, List.length_append, List.length_cons] at hlen
          omega
        · -- strictly inside: the run is the marker's own `PH`
          have hc : c = 'P' := by
            have hh := congrArg List.head? hy2
            simpa using hh.symm
          subst hc
          obtain ⟨hx, hy⟩ := marker_P_split hy1
          subst hx
          refine ⟨[], j, O, cs, rfl, ?_, ?_⟩
          · rw [hx1]
            simp [flatC_nil]
          · rw [hy] at hy2
            have hh := congrArg List.tail hy2
            simp only [List.tail_cons, List.cons_append] at hh
            injection hh with _ hh2
            rw [hh2]
            simp [List.append_assoc]
    · -- the run would begin inside the leading component
      rcases x with _ | ⟨c, x⟩
      · -- at its very end: the marker would begin with `P`
        simp only [List.nil_append] at hx2
        have hh := congrArg List.head? hx2
        simp [marker] at hh
      · have hc : c = 'P' := by
          have hh := congrArg List.head? hx2
          simpa using hh.symm
        subst hc
        rcases x with _ | ⟨c2, x⟩
        · -- one character before its end: the marker would begin with `H`
          have hh := congrArg List.tail hx2
          simp only [List.tail_cons, List.singleton_append] at hh
          have hh2 := congrArg List.head? hh
          simp [marker] at hh2
        · have hc2 : c2 = 'H' := by
            have hh := congrArg List.tail hx2
            simp only [List.tail_cons, List.cons_append] at hh
            have hh2 := congrArg List.head? hh
            simpa using hh2.symm
          subst hc2
          exfalso
          have hc3 : containsSeg ['P', 'H'] L = true :=
            containsSeg_iff.mpr ⟨u, x, by simpa using hx1⟩
          rw [hL] at hc3
          cases hc3

/-- Chunk indices bounded below and strictly increasing. -/
def IndicesGood : Nat → List (Nat × Str) → Prop
  | _, [] => True
  | b, jc :: cs => b ≤ jc.1 ∧ IndicesGood (jc.1 + 1) cs

theorem indicesGood_lb {b : Nat} {cs : List (Nat × Str)} (h : IndicesGood b cs) :
    ∀ jc ∈ cs, b ≤ jc.1 := by
  induction cs generalizing b with
  | nil => intro jc hjc; cases hjc
  | cons jc0 cs ih =>
    intro jc hjc
    obtain ⟨h1, h2⟩ := h
    rcases List.mem_cons.mp hjc with hjc | hjc
    · rw [hjc]; exact h1
    · have := ih h2 jc hjc
      omega

theorem altForm_indices : ∀ (ps : List Piece) (i : Nat),
    IndicesGood i (altForm i ps).2 := by
  intro ps
  induction ps with
  | nil => intro i; trivial
  | cons p ps ih =>
    cases p with
    | gap c => intro i; simpa [altForm] using ih i
    | tok m =>
      intro i
      exact ⟨le_refl i, ih (i + 1)⟩

/-- With strictly increasing indices, the split at a given index is
unique. -/
theorem occ_index_unique {k : Nat} :
    ∀ (cs : List (Nat × Str)) (b : Nat), IndicesGood b cs →
      ∀ (c1 : List (Nat × Str)) (O : Str) c2 (c1' : List (Nat × Str)) (O' : Str) c2',
        cs = c1 ++ (k, O) :: c2 → cs = c1' ++ (k, O') :: c2' → c1 = c1' := by
  intro cs
  induction cs with
  | nil =>
    intro b _ c1 O c2 c1' O' c2' h1 _
    exact absurd h1.symm (by simp)
  | cons jc0 cs ih =>
    intro b hgood c1 O c2 c1' O' c2' h1 h2
    obtain ⟨hb, hgood2⟩ := hgood
    cases c1 with
    | nil =>
      cases c1' with
      | nil => rfl
      | cons jc2 c1'' =>
        simp only [List.nil_append] at h1
        injection h1 with h1a h1b
        injection h2 with h2a h2b
        exfalso
        have hmem : (k, O') ∈ cs := by rw [h2b]; simp
        have := indicesGood_lb hgood2 (k, O') hmem
        rw [h1a] at this
        simp at this
    | cons jc1 c1'' =>
      cases c1' with
      | nil =>
        simp only [List.nil_append] at h2
        injection h2 with h2a h2b
        injection h1 with h1a h1b
        exfalso
        have hmem : (k, O) ∈ cs := by rw [h1b]; simp
        have := indicesGood_lb hgood2 (k, O) hmem
        rw [h2a] at this
        simp at this
      | cons jc2 c1''' =>
        injection h1 with h1a h1b
        injection h2 with h2a h2b
        rw [← h1a, ← h2a]
        rw [ih _ hgood2 c1'' O c2 c1''' O' c2' h1b h2b]

theorem marker_ne_nil (k : Nat) : marker k ≠ [] := by simp [marker]

/-- Expand a marker occurrence into a `PH`-run occurrence. -/
theorem marker_occ_expand (k : Nat) (u w : Str) :
    u ++ marker k ++ w = (u ++ ['_', '_']) ++ 'P' :: 'H' :: (natRepr k ++ '_' :: '_' :: w) := by
  simp [marker, List.append_assoc]

/-- In `original ++ marker k ++ all-marked-rendering`, the only
occurrence of `marker k` is the explicit one. -/
theorem marker_occ_unique {pre rest : List Piece} {k : Nat}
    (hpre : containsSeg ['P', 'H'] (origJoin pre) = false)
    (hrest : containsSeg ['P', 'H'] (origJoin rest) = false) :
    ∀ u w, origJoin pre ++ marker k ++ renderM (k + 1) rest = u ++ marker k ++ w →
      u = origJoin pre := by
  intro u w hocc
  have hB : renderM (k + 1) rest =
      (altForm (k + 1) rest).1 ++ flatC (altForm (k + 1) rest).2 :=
    (altForm_flat (k + 1) rest).symm
  have hline : origJoin pre ++ marker k ++ renderM (k + 1) rest =
      origJoin pre ++ flatC ((k, (altForm (k + 1) rest).1) :: (altForm (k + 1) rest).2) := by
    rw [flatC_cons, hB]
    simp [List.append_assoc]
  have hforms := @altForm_noPH rest (k + 1) hrest
  have heq2 : origJoin pre ++
      flatC ((k, (altForm (k + 1) rest).1) :: (altForm (k + 1) rest).2) =
      (u ++ ['_', '_']) ++ 'P' :: 'H' :: (natRepr k ++ '_' :: '_' :: w) := by
    rw [← hline, hocc, marker_occ_expand]
  obtain ⟨cpre, j, O, cpost, hsplit, hu, hv⟩ :=
    core_PH ((k, (altForm (k + 1) rest).1) :: (altForm (k + 1) rest).2)
      (origJoin pre) (u ++ ['_', '_']) (natRepr k ++ '_' :: '_' :: w) hpre
      (by
        intro jc hjc
        rcases List.mem_cons.mp hjc with hjc | hjc
        · rw [hjc]
          exact hforms.1
        · exact hforms.2 jc hjc)
      heq2
  have hkj : k = j := marker_digits_det hv
  subst hkj
  have hgood : IndicesGood k ((k, (altForm (k + 1) rest).1) :: (altForm (k + 1) rest).2) :=
    ⟨le_refl k, altForm_indices rest (k + 1)⟩
  have hcpre : ([] : List (Nat × Str)) = cpre :=
    occ_index_unique _ k hgood [] (altForm (k + 1) rest).1 (altForm (k + 1) rest).2
      cpre O cpost rfl hsplit
  rw [← hcpre, flatC_nil, List.append_nil] at hu
  have hu2 : (u ++ ['_', '_']).reverse = (origJoin pre ++ ['_', '_']).reverse :=
    congrArg List.reverse hu
  simp only [List.reverse_append] at hu2
  have hu3 := congrArg List.tail (congrArg List.tail hu2)
  simp only [List.reverse_cons, List.reverse_nil, List.nil_append, List.cons_append,
    List.tail_cons] at hu3
  have := congrArg List.reverse hu3
  simpa using this

/-- Processing the enumerated pairs left to right turns the mixed
rendering back into the original text, one marker at a time. -/
theorem restore_fold :
    ∀ (rest pre : List Piece) (k : Nat),
      containsSeg ['P', 'H'] (origJoin (pre ++ rest)) = false →
      ((List.enumFrom k (toks rest)).map (fun im => (marker im.1, im.2))).foldl
          (fun t mp => replaceAll t mp.1 mp.2)
          (origJoin pre ++ renderM k rest) =
        origJoin pre ++ origJoin rest := by
  intro rest
  induction rest with
  | nil => intro pre k _; simp [toks_nil, renderM, origJoin_nil]
  | cons p rest ih =>
    cases p with
    | gap c =>
      intro pre k hPH
      have hassoc : pre ++ Piece.gap c :: rest = (pre ++ [Piece.gap c]) ++ rest := by
        simp
      have hstate : origJoin pre ++ renderM k (Piece.gap c :: rest) =
          origJoin (pre ++ [Piece.gap c]) ++ renderM k rest := by
        rw [origJoin_append]
        simp [renderM, origJoin, Piece.orig, List.append_assoc]
      rw [toks_cons_gap, hstate, ih (pre ++ [Piece.gap c]) k (by rw [← hassoc]; exact hPH)]
      rw [origJoin_append]
      simp [origJoin, Piece.orig, origJoin_cons_gap, List.append_assoc]
    | tok m =>
      intro pre k hPH
      have hassoc : pre ++ Piece.tok m :: rest = (pre ++ [Piece.tok m]) ++ rest := by
        simp
      have hPHpre : containsSeg ['P', 'H'] (origJoin pre) = false :=
        containsSeg_of_lead hPH (origJoin_append pre (Piece.tok m :: rest))
      have hPHrest : containsSeg ['P', 'H'] (origJoin rest) = false := by
        refine containsSeg_of_middle (A := origJoin pre ++ m) (B := []) ?_
        have : origJoin (pre ++ Piece.tok m :: rest) =
            origJoin pre ++ m ++ origJoin rest ++ [] := by
          rw [origJoin_append, origJoin_cons_tok]
          simp [List.append_assoc]
        rw [← this]
        exact hPH
      rw [toks_cons_tok, List.enumFrom_cons, List.map_cons, List.foldl_cons]
      have hstep : replaceAll (origJoin pre ++ renderM k (Piece.tok m :: rest))
          (marker k) m = origJoin pre ++ m ++ renderM (k + 1) rest := by
        have hform : origJoin pre ++ renderM k (Piece.tok m :: rest) =
            origJoin pre ++ marker k ++ renderM (k + 1) rest := by
          simp [renderM, List.append_assoc]
        rw [hform]
        exact replaceAll_single (marker_ne_nil k)
          (marker_occ_unique hPHpre hPHrest)
      rw [hstep]
      have hstate : origJoin pre ++ m ++ renderM (k + 1) rest =
          origJoin (pre ++ [Piece.tok m]) ++ renderM (k + 1) rest := by
        rw [origJoin_append]
        simp [origJoin, Piece.orig, List.append_assoc]
      rw [hstate, ih (pre ++ [Piece.tok m]) (k + 1) (by rw [← hassoc]; exact hPH)]
      rw [origJoin_append, origJoin_cons_tok]
      simp [origJoin, Piece.orig, List.append_assoc]

/-- Restoring the extracted placeholders of a `PH`-free text recovers
the text. -/
theorem restore_extract {text : Str}
    (hPH : containsSeg ['P', 'H'] text = false) :
    XLIFFTranslator.restore_placeholders
        (XLIFFTranslator.extract_placeholders text).1
        (XLIFFTranslator.extract_placeholders text).2 = text := by
  rw [extract_renders hPH]
  unfold XLIFFTranslator.restore_placeholders
  have := restore_fold (pieces text) [] 0
    (by simpa [pieces_join] using hPH)
  simp only [origJoin_nil, List.nil_append] at this
  rw [this, pieces_join]

/-! ### Claim C1 -/

/-- `C1` (counterexample to the unrestricted round trip): for the text
`"__PH0__ %d"`, which already contains a marker-shaped substring, restoring
the extracted placeholders into the marker-substituted text does not
reproduce the original text. -/
theorem C1_roundtrip_counterexample :
    XLIFFTranslator.restore_placeholders
        (XLIFFTranslator.extract_placeholders (String.toList "__PH0__ %d")).1
        (XLIFFTranslator.extract_placeholders (String.toList "__PH0__ %d")).2
      ≠ String.toList "__PH0__ %d" := by decide

/-- `C1` (amended): for every text that does not contain the two-letter
substring `PH`, and hence for every combination of zero, one or multiple
occurrences of the supported placeholder grammars in ordinary text,
restoring the extracted tokens into the marker-substituted text reproduces
the original text exactly. -/
theorem C1_roundtrip (text : Str)
    (hPH : containsSeg ['P', 'H'] text = false) :
    XLIFFTranslator.restore_placeholders
        (XLIFFTranslator.extract_placeholders text).1
        (XLIFFTranslator.extract_placeholders text).2 = text :=
  restore_extract hPH

/-- `C1` witness: the amended round trip evaluated on a mixed-grammar
text. -/
theorem C1_roundtrip_witness :
    containsSeg ['P', 'H']
        (String.toList "You drank %lld ml today: %1$@ $(NAME) °C {2}") = false ∧
    XLIFFTranslator.restore_placeholders
        (XLIFFTranslator.extract_placeholders
            (String.toList "You drank %lld ml today: %1$@ $(NAME) °C {2}")).1
        (XLIFFTranslator.extract_placeholders
            (String.toList "You drank %lld ml today: %1$@ $(NAME) °C {2}")).2
      = String.toList "You drank %lld ml today: %1$@ $(NAME) °C {2}" :=
  ⟨by decide, C1_roundtrip
    (String.toList "You drank %lld ml today: %1$@ $(NAME) °C {2}")
    (by decide)⟩

/-! ### Document processing model

`process_xliff_file` works on an XML tree; the model keeps, per
trans-unit, exactly the data the function reads and writes: the optional
source text and the optional target element with its text and state
attribute.  XML parsing and serialization of the surrounding structure
are parameters, and the on-disk file is its content string. -/

/-- A `target` element: its text and its `state` attribute. -/
structure Target where
  text : Option Str
  state : Option Str
  deriving DecidableEq

/-- A trans-unit: `source` is `none` when the source element is absent
and `some none` when it is present without text; `target` likewise
models an optional target element. -/
structure TransUnit where
  source : Option (Option Str)
  target : Option Target
  deriving DecidableEq

/-- An entry appended to `self.errors`. -/
structure ErrRec where
  file : Str
  text : Str
  error : Str
  deriving DecidableEq

/-- The target text reachable from a unit (`target.text`). -/
def targetText (u : TransUnit) : Option Str := u.target.bind Target.text

/-- Outcome of the needs-translation chain of `process_xliff_file`
(lines 245 to 268) for a unit whose source text is present and
non-blank: translate it, skip it under `only_missing`, or leave it
alone. -/
inductive Decision where
  | needs
  | skipOM
  | keep
  deriving DecidableEq

/-- The needs-translation chain itself, clause for clause: target
absent; target text falsy or blank; target state `needs-review-l10n`;
under `only_missing`, target text stripped-equal to the stripped source;
under `only_missing`, anything else is skipped; otherwise no action. -/
def decideUnit (only_missing : Bool) (source_text : Str)
    (tgt : Option Target) : Decision :=
  match tgt with
  | none => Decision.needs
  | some t =>
    match t.text with
    | none => Decision.needs
    | some ttext =>
      if ttext = [] ∨ pyStrip ttext = [] then Decision.needs
      else if t.state = some (String.data "needs-review-l10n") then Decision.needs
      else if only_missing ∧ ttext ≠ [] ∧ pyStrip ttext = pyStrip source_text then
        Decision.needs
      else if only_missing then Decision.skipOM
      else Decision.keep

/-- Whether `process_xliff_file` translates (and counts) a unit. -/
def unitNeeds (only_missing : Bool) (u : TransUnit) : Bool :=
  match u.source with
  | none => false
  | some none => false
  | some (some source_text) =>
    if pyStrip source_text = [] then false
    else decide (decideUnit only_missing source_text u.target = Decision.needs)

/-- What one iteration of the trans-unit loop contributes: the updated
unit, its additions to `translated_count` and `error_count`, the error
records appended to `self.errors`, the texts sent to the translation
service, and whether `modified` was set. -/
structure UnitStep where
  unit : TransUnit
  tcount : Nat
  ecount : Nat
  errs : List ErrRec
  calls : List Str
  modified : Bool
  deriving DecidableEq

/-- One iteration of the trans-unit loop (lines 236 to 293): units with
an absent or blank source are passed over; a target element is created
when absent (also in a dry run, though with no text); a unit needing
translation goes through `translate_text`, its error is recorded, and
its target text and state are set only when not a dry run. -/
def processUnit (svc : Str → Except Str Str)
    (failOnMismatch dry_run only_missing : Bool)
    (fname : Str) (u : TransUnit) : UnitStep :=
  match u.source with
  | none => ⟨u, 0, 0, [], [], false⟩
  | some none => ⟨u, 0, 0, [], [], false⟩
  | some (some source_text) =>
    if pyStrip source_text = [] then ⟨u, 0, 0, [], [], false⟩
    else
      match decideUnit only_missing source_text u.target with
      | Decision.skipOM => ⟨u, 0, 0, [], [], false⟩
      | Decision.keep => ⟨u, 0, 0, [], [], false⟩
      | Decision.needs =>
        let tgt0 : Target := (u.target).getD ⟨none, none⟩
        let r := XLIFFTranslator.translate_textC svc failOnMismatch source_text
        let ec : Nat := if (r.1.2).isSome then 1 else 0
        let erecs : List ErrRec :=
          match r.1.2 with
          | some e => [⟨fname, source_text.take 50, e⟩]
          | none => []
        let newTarget : Target :=
          if dry_run then tgt0
          else ⟨some r.1.1, some (String.data "translated")⟩
        ⟨⟨u.source, some newTarget⟩, 1, ec, erecs, r.2, !dry_run⟩

/-- Accumulated state of the trans-unit loop. -/
structure LoopState where
  units : List TransUnit
  tcount : Nat
  ecount : Nat
  errs : List ErrRec
  calls : List Str
  modified : Bool
  deriving DecidableEq

/-- The trans-unit loop over a list of units.  Each iteration depends
only on its own unit (the accumulated counts feed nothing back), so the
loop is the order-preserving combination of the per-unit steps. -/
def processUnits (svc : Str → Except Str Str)
    (failOnMismatch dry_run only_missing : Bool)
    (fname : Str) : List TransUnit → LoopState
  | [] => ⟨[], 0, 0, [], [], false⟩
  | u :: us =>
    let s := processUnit svc failOnMismatch dry_run only_missing fname u
    let st := processUnits svc failOnMismatch dry_run only_missing fname us
    ⟨s.unit :: st.units, s.tcount + st.tcount, s.ecount + st.ecount,
     s.errs ++ st.errs, s.calls ++ st.calls, s.modified || st.modified⟩

/-- Outcome of `process_xliff_file` on one file: the on-disk content
after the call, the returned pair of counts, the error records appended,
and the service calls made. -/
structure FileOutcome where
  content : Str
  translated : Nat
  errors : Nat
  errs : List ErrRec
  calls : List Str
  deriving DecidableEq

/-- The document declaration the post-write validation looks for. -/
def XMLDECL : Str := String.data "<?xml"

/-- `process_xliff_file` (lines 192 to 338).  `parse` abstracts XML
parsing (`none` lands in the outer except clause, which restores the
original content and returns `(0, 1)`); `serialize` abstracts
`tree.write`, giving the bytes written for the mutated units.  When not
a dry run and the tree was modified, the file is written, re-read, and
checked to contain `<?xml` within its first 100 characters; on failure
the original content is restored and `(0, translated_count)` is
returned. -/
def process_xliff_file (parse : Str → Option (List TransUnit))
    (serialize : List TransUnit → Str) (svc : Str → Except Str Str)
    (failOnMismatch dry_run only_missing : Bool)
    (fname content : Str) : FileOutcome :=
  match parse content with
  | none => ⟨content, 0, 1, [], []⟩
  | some trans_units =>
    let st := processUnits svc failOnMismatch dry_run only_missing fname trans_units
    if !dry_run && st.modified then
      let written := serialize st.units
      if containsSeg XMLDECL (written.take 100) then
        ⟨written, st.tcount, st.ecount, st.errs, st.calls⟩
      else
        ⟨content, 0, st.tcount, st.errs, st.calls⟩
    else
      ⟨content, st.tcount, st.ecount, st.errs, st.calls⟩

/-- `process_language_folder` over the (name, content) files of a
folder: every file is processed and reported, whatever the outcomes of
the other files. -/
def process_language_folder (parse : Str → Option (List TransUnit))
    (serialize : List TransUnit → Str) (svc : Str → Except Str Str)
    (failOnMismatch dry_run only_missing : Bool)
    (files : List (Str × Str)) : List (Str × (Nat × Nat)) :=
  files.map fun f =>
    let o := process_xliff_file parse serialize svc failOnMismatch dry_run
      only_missing f.1 f.2
    (f.1, (o.translated, o.errors))

/-! ### Loop lemmas -/

/-- A unit the loop does not translate is passed through untouched:
no counts, no error records, no service calls, no modification. -/
theorem processUnit_not_needs (svc : Str → Except Str Str)
    (failOn dry om : Bool) (fname : Str) (u : TransUnit)
    (h : unitNeeds om u = false) :
    processUnit svc failOn dry om fname u = ⟨u, 0, 0, [], [], false⟩ := by
  unfold processUnit
  unfold unitNeeds at h
  cases hs : u.source with
  | none => rfl
  | some os =>
    cases os with
    | none => rfl
    | some stext =>
      rw [hs] at h
      by_cases hstrip : pyStrip stext = []
      · simp [hstrip]
      · simp only [if_neg hstrip] at h ⊢
        cases hd : decideUnit om stext u.target with
        | needs => rw [hd] at h; simp at h
        | skipOM => rfl
        | keep => rfl

/-- The `translated_count` contribution of one unit. -/
theorem processUnit_tcount (svc : Str → Except Str Str)
    (failOn dry om : Bool) (fname : Str) (u : TransUnit) :
    (processUnit svc failOn dry om fname u).tcount =
      if unitNeeds om u then 1 else 0 := by
  unfold processUnit unitNeeds
  cases hs : u.source with
  | none => rfl
  | some os =>
    cases os with
    | none => rfl
    | some stext =>
      by_cases hstrip : pyStrip stext = []
      · simp [hstrip]
      · simp only [if_neg hstrip]
        cases hd : decideUnit om stext u.target with
        | needs => simp
        | skipOM => simp
        | keep => simp

/-- The `modified` contribution of one unit. -/
theorem processUnit_modified (svc : Str → Except Str Str)
    (failOn dry om : Bool) (fname : Str) (u : TransUnit) :
    (processUnit svc failOn dry om fname u).modified =
      if unitNeeds om u then !dry else false := by
  unfold processUnit unitNeeds
  cases hs : u.source with
  | none => rfl
  | some os =>
    cases os with
    | none => rfl
    | some stext =>
      by_cases hstrip : pyStrip stext = []
      · simp [hstrip]
      · simp only [if_neg hstrip]
        cases hd : decideUnit om stext u.target with
        | needs => simp
        | skipOM => simp
        | keep => simp

/-- In a dry run a unit keeps its target text (a fresh target element,
when one is created, has none). -/
theorem processUnit_dry_targetText (svc : Str → Except Str Str)
    (failOn om : Bool) (fname : Str) (u : TransUnit) :
    targetText (processUnit svc failOn true om fname u).unit = targetText u := by
  unfold processUnit
  cases hs : u.source with
  | none => rfl
  | some os =>
    cases os with
    | none => rfl
    | some stext =>
      by_cases hstrip : pyStrip stext = []
      · simp [hstrip]
      · simp only [if_neg hstrip]
        cases hd : decideUnit om stext u.target with
        | skipOM => rfl
        | keep => rfl
        | needs =>
          show targetText ⟨u.source, some ((u.target).getD ⟨none, none⟩)⟩ = _
          unfold targetText
          cases ht : u.target with
          | none => simp [Option.getD]
          | some t => simp [Option.getD]

/-- The loop counts exactly the units that need translation. -/
theorem processUnits_tcount (svc : Str → Except Str Str)
    (failOn dry om : Bool) (fname : Str) (us : List TransUnit) :
    (processUnits svc failOn dry om fname us).tcount =
      us.countP (fun u => unitNeeds om u) := by
  induction us with
  | nil => rfl
  | cons u us ih =>
    show (processUnit svc failOn dry om fname u).tcount +
        (processUnits svc failOn dry om fname us).tcount = _
    rw [processUnit_tcount, ih, List.countP_cons]
    by_cases hn : unitNeeds om u = true
    · simp [hn]; omega
    · simp [hn]

/-- The tree is marked modified exactly when the run is not dry and some
unit needed translation. -/
theorem processUnits_modified (svc : Str → Except Str Str)
    (failOn dry om : Bool) (fname : Str) (us : List TransUnit) :
    (processUnits svc failOn dry om fname us).modified =
      (!dry && us.any (fun u => unitNeeds om u)) := by
  induction us with
  | nil => simp [processUnits]
  | cons u us ih =>
    show ((processUnit svc failOn dry om fname u).modified ||
        (processUnits svc failOn dry om fname us).modified) = _
    rw [processUnit_modified, ih, List.any_cons]
    cases hn : unitNeeds om u <;> cases dry <;> simp [hn]

/-- A modified tree holds at least one translated unit. -/
theorem processUnits_modified_tcount (svc : Str → Except Str Str)
    (failOn dry om : Bool) (fname : Str) (us : List TransUnit)
    (h : (processUnits svc failOn dry om fname us).modified = true) :
    0 < (processUnits svc failOn dry om fname us).tcount := by
  rw [processUnits_modified] at h
  rw [processUnits_tcount]
  simp only [Bool.and_eq_true] at h
  rcases List.any_eq_true.mp h.2 with ⟨u, hu, hn⟩
  exact List.countP_pos_iff.mpr ⟨u, hu, hn⟩

/-- In a dry run the loop leaves every target text as it was. -/
theorem processUnits_dry_targetText (svc : Str → Except Str Str)
    (failOn om : Bool) (fname : Str) (us : List TransUnit) :
    (processUnits svc failOn true om fname us).units.map targetText =
      us.map targetText := by
  induction us with
  | nil => rfl
  | cons u us ih =>
    show targetText (processUnit svc failOn true om fname u).unit ::
        (processUnits svc failOn true om fname us).units.map targetText = _
    rw [processUnit_dry_targetText, ih, List.map_cons]

/-! ### Concrete collaborators used by the claim instances -/

/-- An identity translation service. -/
def svcGood : Str → Except Str Str := fun t => Except.ok t

/-- A service that always fails. -/
def svcFail : Str → Except Str Str := fun _ => Except.error (String.data "boom")

/-- A service that drops the marker (and everything else). -/
def svcC4 : Str → Except Str Str := fun _ => Except.ok (String.data "Vous avez bu ml")

/-- A service that drops the protected unit literal `ml` but keeps the
marker. -/
def svcC5 : Str → Except Str Str :=
  fun _ => Except.ok (String.data "You drank __PH0__ today")

/-- A well-behaved service for Scenario A: marker and `ml` survive. -/
def svcC5A : Str → Except Str Str :=
  fun _ => Except.ok (String.data "Vous avez bu __PH0__ ml maintenant")

/-- The `translated` value the ok branch of `translate_text` builds
from the service output `tt`: markers restored when there are
placeholders. -/
def restoredOf (text tt : Str) : Str :=
  if (XLIFFTranslator.extract_placeholders text).2 ≠ [] then
    XLIFFTranslator.restore_placeholders tt (XLIFFTranslator.extract_placeholders text).2
  else tt


/-- A unit with a whitespace-only source text. -/
def uBlank : TransUnit := ⟨some (some (String.data "   ")), none⟩


/-- A unit that needs translation (no target yet). -/
def unitC6 : TransUnit := ⟨some (some (String.data "Hello")), none⟩

/-- A parser giving one translatable unit for any content. -/
def parseC6 : Str → Option (List TransUnit) := fun _ => some [unitC6]

/-- A serializer producing a well-formed document. -/
def serialC6 : List TransUnit → Str := fun _ => String.data "<?xml version"

/-- A serializer producing a corrupt document. -/
def serialBad : List TransUnit → Str := fun _ => String.data "corrupt"

/-- A unit whose target differs from its source only by whitespace. -/
def uC7 : TransUnit :=
  ⟨some (some (String.data "Hello")), some ⟨some (String.data "Hello "), none⟩⟩

/-- A unit with a genuinely different, non-empty target. -/
def uC7W : TransUnit :=
  ⟨some (some (String.data "Hello")), some ⟨some (String.data "Bonjour"), none⟩⟩

/-! ### Claim C3 -/

/-- `C3`: the validator accepts exactly when the placeholder count of the
translated text matches that of the original and the two texts hold the
same set of distinct placeholder tokens. -/
theorem C3_validate_iff (original translated : Str) :
    (PlaceholderValidator.validate original translated).1 = true ↔
      ((PlaceholderValidator.extract_placeholders original).length =
          (PlaceholderValidator.extract_placeholders translated).length ∧
        ∀ x : Str, x ∈ PlaceholderValidator.extract_placeholders original ↔
          x ∈ PlaceholderValidator.extract_placeholders translated) := by
  unfold PlaceholderValidator.validate
  set op := PlaceholderValidator.extract_placeholders original with hop
  set tp := PlaceholderValidator.extract_placeholders translated with htp
  by_cases hlen : op.length ≠ tp.length
  · rw [if_pos hlen]
    refine iff_of_false (by simp) ?_
    intro hcon
    exact hlen hcon.1
  · rw [if_neg hlen]
    push_neg at hlen
    by_cases hmiss : (op.dedup.filter fun x => ¬ x ∈ tp) ≠ []
    · rw [if_pos hmiss]
      refine iff_of_false (by simp) ?_
      intro hcon
      apply hmiss
      rw [List.filter_eq_nil_iff]
      intro a ha
      have hmem : a ∈ tp := (hcon.2 a).mp (List.mem_dedup.mp ha)
      simp [hmem]
    · rw [if_neg hmiss]
      push_neg at hmiss
      by_cases hex : (tp.dedup.filter fun x => ¬ x ∈ op) ≠ []
      · rw [if_pos hex]
        refine iff_of_false (by simp) ?_
        intro hcon
        apply hex
        rw [List.filter_eq_nil_iff]
        intro a ha
        have hmem : a ∈ op := (hcon.2 a).mpr (List.mem_dedup.mp ha)
        simp [hmem]
      · rw [if_neg hex]
        push_neg at hex
        refine iff_of_true rfl ⟨hlen, fun x => ⟨fun hx => ?_, fun hx => ?_⟩⟩
        · have := List.filter_eq_nil_iff.mp hmiss x (List.mem_dedup.mpr hx)
          simpa using this
        · have := List.filter_eq_nil_iff.mp hex x (List.mem_dedup.mpr hx)
          simpa using this

/-! ### Claim C9 -/

/-- `C9`: the skip policy holds exactly for blank text, text whose
stripped form is a protected unit literal, and text whose
placeholder-free remainder is blank or a bare punctuation token; in
particular for the five concrete examples of the spec. -/
theorem C9_should_skip :
    (∀ text : Str, XLIFFTranslator.should_skip_translation text = true ↔
      (text = [] ∨ pyStrip text = [] ∨ pyStrip text ∈ UNITS ∨
        pyStrip (subEmpty text) = [] ∨
        pyStrip (subEmpty text) ∈ XLIFFTranslator.PUNCT)) ∧
    XLIFFTranslator.should_skip_translation (String.data "") = true ∧
    XLIFFTranslator.should_skip_translation (String.data "  ") = true ∧
    XLIFFTranslator.should_skip_translation (String.data "kg") = true ∧
    XLIFFTranslator.should_skip_translation (String.data "%@") = true ∧
    XLIFFTranslator.should_skip_translation (String.data "Hello %@") = false := by
  refine ⟨?_, by decide, by decide, by decide, by decide, by decide⟩
  intro text
  unfold XLIFFTranslator.should_skip_translation
  by_cases h1 : text = [] ∨ pyStrip text = []
  · rw [if_pos h1]
    refine iff_of_true rfl ?_
    tauto
  · rw [if_neg h1]
    by_cases h2 : pyStrip text ∈ UNITS
    · rw [if_pos h2]
      refine iff_of_true rfl ?_
      tauto
    · rw [if_neg h2]
      by_cases h3 : pyStrip (subEmpty text) = [] ∨
          pyStrip (subEmpty text) ∈ XLIFFTranslator.PUNCT
      · rw [if_pos h3]
        refine iff_of_true rfl ?_
        tauto
      · rw [if_neg h3]
        refine iff_of_false (by simp) ?_
        tauto

/-! ### Claim C8 -/

/-- `C8`: the three non-translating paths of `translate_text` — skip
policy, an empty stripped remainder after placeholder extraction, and a
failing service call — all return the input text, the first two with no
error and the last with the service error message. -/
theorem C8_nontranslating (svc : Str → Except Str Str) (failOn : Bool)
    (text e : Str) :
    (XLIFFTranslator.should_skip_translation text = true →
      XLIFFTranslator.translate_textC svc failOn text = ((text, none), [])) ∧
    (pyStrip (XLIFFTranslator.extract_placeholders text).1 = [] →
      XLIFFTranslator.translate_text svc failOn text = (text, none)) ∧
    (XLIFFTranslator.should_skip_translation text = false →
      pyStrip (XLIFFTranslator.extract_placeholders text).1 ≠ [] →
      svc (XLIFFTranslator.extract_placeholders text).1 = Except.error e →
      XLIFFTranslator.translate_text svc failOn text =
        (text, some (XLIFFTranslator.svcErrMsg e))) := by
  refine ⟨?_, ?_, ?_⟩
  · intro hskip
    unfold XLIFFTranslator.translate_textC
    rw [if_pos hskip]
  · intro hstrip
    unfold XLIFFTranslator.translate_text XLIFFTranslator.translate_textC
    by_cases hskip : XLIFFTranslator.should_skip_translation text = true
    · simp [hskip]
    · simp [hskip, hstrip]
  · intro hskip hstrip hsvc
    unfold XLIFFTranslator.translate_text XLIFFTranslator.translate_textC
    simp [hskip, hstrip, hsvc]

/-- `C8` witness: the skip path on bare `%@` and the service-failure
path on `Hi %@` under a failing service. -/
theorem C8_nontranslating_witness :
    XLIFFTranslator.translate_textC svcFail true (String.data "%@") =
      ((String.data "%@", none), []) ∧
    XLIFFTranslator.translate_text svcFail true (String.data "Hi %@") =
      (String.data "Hi %@", some (XLIFFTranslator.svcErrMsg (String.data "boom"))) :=
  ⟨(C8_nontranslating svcFail true (String.data "%@") (String.data "boom")).1
      (by decide),
   (C8_nontranslating svcFail true (String.data "Hi %@") (String.data "boom")).2.2
      (by decide) (by decide) rfl⟩

/-! ### Claim C4 -/

/-- `C4` counterexample: for the source `You drank %lld ml today` and a
service output missing the placeholder, the strict policy does return
the original text with a validation error, but the error message does
not name the missing placeholder `%lld` (the count-mismatch message
reports only the two counts). -/
theorem C4_counterexample :
    (XLIFFTranslator.translate_text svcC4 true
        (String.data "You drank %lld ml today")).1 =
      String.data "You drank %lld ml today" ∧
    ((XLIFFTranslator.translate_text svcC4 true
        (String.data "You drank %lld ml today")).2).isSome = true ∧
    containsSeg (String.data "%lld")
      (((XLIFFTranslator.translate_text svcC4 true
        (String.data "You drank %lld ml today")).2).getD []) = false := by
  decide

/-- `C4` (amended): when the restored translation fails placeholder
validation, the strict policy returns the original source text with the
validation error message, and the relaxed policy returns the restored
translation with no error. -/
theorem C4_mismatch (svc : Str → Except Str Str) (text tt : Str)
    (hskip : XLIFFTranslator.should_skip_translation text = false)
    (hstrip : pyStrip (XLIFFTranslator.extract_placeholders text).1 ≠ [])
    (hsvc : svc (XLIFFTranslator.extract_placeholders text).1 = Except.ok tt)
    (hval : (PlaceholderValidator.validate text (restoredOf text tt)).1 = false) :
    XLIFFTranslator.translate_text svc true text =
      (text, some (XLIFFTranslator.valErrMsg
        (PlaceholderValidator.validate text (restoredOf text tt)).2)) ∧
    XLIFFTranslator.translate_text svc false text = (restoredOf text tt, none) := by
  unfold restoredOf at hval
  simp only [ne_eq, ite_not] at hval
  constructor <;>
  · unfold XLIFFTranslator.translate_text XLIFFTranslator.translate_textC restoredOf
    simp [hskip, hstrip, hsvc, hval]

/-- `C4` witness: the amended mismatch behaviour on the Scenario B
instance. -/
theorem C4_mismatch_witness :
    XLIFFTranslator.translate_text svcC4 true (String.data "You drank %lld ml today") =
      (String.data "You drank %lld ml today",
        some (XLIFFTranslator.valErrMsg
          (PlaceholderValidator.validate (String.data "You drank %lld ml today")
            (restoredOf (String.data "You drank %lld ml today")
              (String.data "Vous avez bu ml"))).2)) ∧
    XLIFFTranslator.translate_text svcC4 false (String.data "You drank %lld ml today") =
      (restoredOf (String.data "You drank %lld ml today")
        (String.data "Vous avez bu ml"), none) :=
  C4_mismatch svcC4 (String.data "You drank %lld ml today")
    (String.data "Vous avez bu ml") (by decide) (by decide) rfl (by decide)

/-! ### Claim C5 -/

/-- `C5` counterexample: the literal unit `ml` inside a sentence is not
protected — a service output that drops it while keeping the marker
passes validation, and `translate_text` returns the altered text with no
error. -/
theorem C5_counterexample :
    XLIFFTranslator.translate_text svcC5 true (String.data "You drank %lld ml today") =
      (String.data "You drank %lld today", none) ∧
    containsSeg (String.data "ml")
      (XLIFFTranslator.translate_text svcC5 true
        (String.data "You drank %lld ml today")).1 = false := by
  decide

/-- `C5` (amended): a unit literal is protected only as the whole
stripped text, via the skip policy; within a longer sentence the
pipeline guarantees Scenario A only when the service output, markers
restored, passes validation — in which case `translate_text` returns it
with no error. -/
theorem C5_units_scenarioA :
    (∀ (text : Str) (svc : Str → Except Str Str) (failOn : Bool),
      pyStrip text ∈ UNITS →
        XLIFFTranslator.translate_textC svc failOn text = ((text, none), [])) ∧
    (∀ (svc : Str → Except Str Str) (failOn : Bool) (text tt : Str),
      XLIFFTranslator.should_skip_translation text = false →
      pyStrip (XLIFFTranslator.extract_placeholders text).1 ≠ [] →
      svc (XLIFFTranslator.extract_placeholders text).1 = Except.ok tt →
      (PlaceholderValidator.validate text (restoredOf text tt)).1 = true →
      XLIFFTranslator.translate_text svc failOn text = (restoredOf text tt, none)) := by
  constructor
  · intro text svc failOn hunit
    have hskip : XLIFFTranslator.should_skip_translation text = true := by
      unfold XLIFFTranslator.should_skip_translation
      by_cases h1 : text = [] ∨ pyStrip text = []
      · rw [if_pos h1]
      · rw [if_neg h1, if_pos hunit]
    unfold XLIFFTranslator.translate_textC
    rw [if_pos hskip]
  · intro svc failOn text tt hskip hstrip hsvc hval
    unfold restoredOf at hval
    simp only [ne_eq, ite_not] at hval
    unfold XLIFFTranslator.translate_text XLIFFTranslator.translate_textC restoredOf
    simp [hskip, hstrip, hsvc, hval]

/-- `C5` witness: the whole-string unit `ml` is skipped, and the
Scenario A instance goes through with `%lld` and `ml` preserved. -/
theorem C5_units_scenarioA_witness :
    XLIFFTranslator.translate_textC svcGood true (String.data "ml") =
      ((String.data "ml", none), []) ∧
    XLIFFTranslator.translate_text svcC5A true (String.data "You drank %lld ml today") =
      (String.data "Vous avez bu %lld ml maintenant", none) := by
  have h1 := (C5_units_scenarioA).1 (String.data "ml") svcGood true (by decide)
  have h2 := (C5_units_scenarioA).2 svcC5A true (String.data "You drank %lld ml today")
    (String.data "Vous avez bu __PH0__ ml maintenant") (by decide) (by decide) rfl (by decide)
  refine ⟨h1, ?_⟩
  rw [h2]
  decide

/-! ### Claim C10 -/

/-- `C10`: a unit whose source element is absent, has no text, or has
whitespace-only text is passed over entirely: no counts, no error
record, no service call, no target created or modified. -/
theorem C10_blank_source (svc : Str → Except Str Str)
    (failOn dry om : Bool) (fname : Str) (u : TransUnit)
    (h : u.source = none ∨ u.source = some none ∨
      ∃ s, u.source = some (some s) ∧ pyStrip s = []) :
    processUnit svc failOn dry om fname u = ⟨u, 0, 0, [], [], false⟩ := by
  unfold processUnit
  rcases h with h | h | ⟨s, hs, hstrip⟩
  · rw [h]
  · rw [h]
  · rw [hs]
    simp [hstrip]

/-- `C10` witness: a unit with a whitespace-only source is untouched. -/
theorem C10_blank_source_witness :
    processUnit svcGood true false false (String.data "f.xliff") uBlank =
      ⟨uBlank, 0, 0, [], [], false⟩ :=
  C10_blank_source svcGood true false false (String.data "f.xliff") uBlank
    (Or.inr (Or.inr ⟨String.data "   ", rfl, by decide⟩))

/-! ### Claim C6 -/

/-- `C6`: a dry run leaves the on-disk content untouched, returns as
`translated_count` exactly the number of units that would change
(non-zero when at least one unit needs translation), and leaves every
target text as it was. -/
theorem C6_dry_run (parse : Str → Option (List TransUnit))
    (serialize : List TransUnit → Str) (svc : Str → Except Str Str)
    (failOn om : Bool) (fname content : Str) (units : List TransUnit)
    (hparse : parse content = some units) :
    (process_xliff_file parse serialize svc failOn true om fname content).content =
      content ∧
    (process_xliff_file parse serialize svc failOn true om fname content).translated =
      units.countP (fun u => unitNeeds om u) ∧
    ((∃ u ∈ units, unitNeeds om u = true) →
      0 < (process_xliff_file parse serialize svc failOn true om fname
        content).translated) ∧
    (processUnits svc failOn true om fname units).units.map targetText =
      units.map targetText := by
  have hout : process_xliff_file parse serialize svc failOn true om fname content =
      ⟨content, (processUnits svc failOn true om fname units).tcount,
        (processUnits svc failOn true om fname units).ecount,
        (processUnits svc failOn true om fname units).errs,
        (processUnits svc failOn true om fname units).calls⟩ := by
    unfold process_xliff_file
    rw [hparse]
    simp
  have htrans : (process_xliff_file parse serialize svc failOn true om fname
      content).translated = units.countP (fun u => unitNeeds om u) := by
    rw [hout]
    exact processUnits_tcount svc failOn true om fname units
  refine ⟨by rw [hout], htrans, ?_,
    processUnits_dry_targetText svc failOn om fname units⟩
  rintro ⟨u, hu, hn⟩
  rw [htrans]
  exact List.countP_pos_iff.mpr ⟨u, hu, hn⟩

/-- `C6` witness: a one-unit dry run keeps the content and counts the
unit. -/
theorem C6_dry_run_witness :
    (process_xliff_file parseC6 serialC6 svcGood true true false (String.data "f")
      (String.data "c")).content = String.data "c" ∧
    (process_xliff_file parseC6 serialC6 svcGood true true false (String.data "f")
      (String.data "c")).translated = 1 := by
  have h := C6_dry_run parseC6 serialC6 svcGood true false (String.data "f")
    (String.data "c") [unitC6] rfl
  refine ⟨h.1, ?_⟩
  rw [h.2.1]
  decide

/-! ### Claim C7 -/

/-- `C7` counterexample: under `only_missing`, a unit whose non-empty
target differs verbatim from its source is not necessarily skipped — a
target differing only in trailing whitespace is stripped-equal to the
source, so the unit is translated and counted. -/
theorem C7_counterexample :
    uC7.source = some (some (String.data "Hello")) ∧
    targetText uC7 = some (String.data "Hello ") ∧
    ¬ targetText uC7 = some (String.data "Hello") ∧
    unitNeeds true uC7 = true ∧
    (processUnit svcGood true false true (String.data "f") uC7).tcount = 1 := by
  decide

/-- `C7` (amended): under `only_missing`, for a unit with non-blank
source text and a target that has non-blank text and is not in state
`needs-review-l10n`: the unit is translated exactly when target and
source are stripped-equal, and otherwise it is skipped — not translated,
not counted, not modified. -/
theorem C7_only_missing (svc : Str → Except Str Str) (failOn dry : Bool)
    (fname stext ttext : Str) (tstate : Option Str) (u : TransUnit)
    (hs : u.source = some (some stext)) (hss : pyStrip stext ≠ [])
    (ht : u.target = some ⟨some ttext, tstate⟩)
    (htt : pyStrip ttext ≠ [])
    (hstate : tstate ≠ some (String.data "needs-review-l10n")) :
    (unitNeeds true u = true ↔ pyStrip ttext = pyStrip stext) ∧
    (pyStrip ttext ≠ pyStrip stext →
      processUnit svc failOn dry true fname u = ⟨u, 0, 0, [], [], false⟩) := by
  have httne : ttext ≠ [] := by
    intro hh
    apply htt
    rw [hh]
    rfl
  have hdec : decideUnit true stext u.target =
      (if pyStrip ttext = pyStrip stext then Decision.needs else Decision.skipOM) := by
    rw [ht]
    simp only [decideUnit]
    rw [if_neg (by tauto : ¬ (ttext = [] ∨ pyStrip ttext = []))]
    rw [if_neg hstate]
    by_cases he : pyStrip ttext = pyStrip stext
    · rw [if_pos ⟨trivial, httne, he⟩, if_pos he]
    · rw [if_neg (by tauto : ¬ (True ∧ ttext ≠ [] ∧
        pyStrip ttext = pyStrip stext)), if_neg he, if_pos trivial]
  have hun : unitNeeds true u =
      decide (decideUnit true stext u.target = Decision.needs) := by
    unfold unitNeeds
    rw [hs]
    simp [hss]
  constructor
  · rw [hun, hdec]
    by_cases he : pyStrip ttext = pyStrip stext
    · simp [he]
    · simp [he]
  · intro he
    apply processUnit_not_needs
    rw [hun, hdec, if_neg he]
    decide

/-- `C7` witness: a unit with target `Bonjour` for source `Hello` is
skipped under `only_missing`. -/
theorem C7_only_missing_witness :
    unitNeeds true uC7W = false ∧
    processUnit svcGood true false true (String.data "f") uC7W =
      ⟨uC7W, 0, 0, [], [], false⟩ := by
  have h := C7_only_missing svcGood true false (String.data "f")
    (String.data "Hello") (String.data "Bonjour") none uC7W rfl (by decide) rfl
    (by decide) (by decide)
  exact ⟨by decide, h.2 (by decide)⟩

/-! ### Claim C2 -/

/-- `C2`: when the file was written (not a dry run, tree modified) and
the post-write validation fails, the content after the call is the
original content byte for byte, the returned pair is
`(0, translated_count)` whose error count is positive, and the folder
loop still processes and reports every other file. -/
theorem C2_rollback (parse : Str → Option (List TransUnit))
    (serialize : List TransUnit → Str) (svc : Str → Except Str Str)
    (failOn om : Bool) (fname content : Str) (units : List TransUnit)
    (hparse : parse content = some units)
    (hmod : (processUnits svc failOn false om fname units).modified = true)
    (hver : containsSeg XMLDECL
      ((serialize (processUnits svc failOn false om fname units).units).take 100) =
        false) :
    (process_xliff_file parse serialize svc failOn false om fname content).content =
      content ∧
    (process_xliff_file parse serialize svc failOn false om fname content).translated =
      0 ∧
    (process_xliff_file parse serialize svc failOn false om fname content).errors =
      (processUnits svc failOn false om fname units).tcount ∧
    0 < (process_xliff_file parse serialize svc failOn false om fname content).errors ∧
    (∀ pre post : List (Str × Str),
      process_language_folder parse serialize svc failOn false om
          (pre ++ (fname, content) :: post) =
        process_language_folder parse serialize svc failOn false om pre ++
          ((fname,
            ((process_xliff_file parse serialize svc failOn false om fname
                content).translated,
              (process_xliff_file parse serialize svc failOn false om fname
                content).errors)) ::
            process_language_folder parse serialize svc failOn false om post)) := by
  have hout : process_xliff_file parse serialize svc failOn false om fname content =
      ⟨content, 0, (processUnits svc failOn false om fname units).tcount,
        (processUnits svc failOn false om fname units).errs,
        (processUnits svc failOn false om fname units).calls⟩ := by
    unfold process_xliff_file
    rw [hparse]
    simp [hmod, hver]
  have hpos : 0 < (process_xliff_file parse serialize svc failOn false om fname
      content).errors := by
    have h1 := processUnits_modified_tcount svc failOn false om fname units hmod
    rw [hout]
    exact h1
  refine ⟨by rw [hout], by rw [hout], by rw [hout], hpos, ?_⟩
  intro pre post
  unfold process_language_folder
  rw [List.map_append, List.map_cons]

/-- `C2` witness: a one-unit file whose serializer yields a corrupt
document keeps its content and reports the error. -/
theorem C2_rollback_witness :
    (process_xliff_file parseC6 serialBad svcGood true false false (String.data "f")
      (String.data "c")).content = String.data "c" ∧
    (process_xliff_file parseC6 serialBad svcGood true false false (String.data "f")
      (String.data "c")).translated = 0 ∧
    0 < (process_xliff_file parseC6 serialBad svcGood true false false
      (String.data "f") (String.data "c")).errors := by
  have h := C2_rollback parseC6 serialBad svcGood true false (String.data "f")
    (String.data "c") [unitC6] rfl (by decide) (by decide)
  exact ⟨h.1, h.2.1, h.2.2.2.1⟩
